import Mathlib

/-!
Verification of the `BitValue` class of `src/framework/bit_value.py`.

The Python class stores a value as a string of '0'/'1' characters of a fixed
length `bits`, most significant bit first.  We model that string as a
`List Bool` ('1' = `true`), literal text as `List Char`, and Python
exceptions as an explicit error type.
-/

namespace BitSim

/-- The Python exception kinds raised by `bit_value.py`. -/
inductive Err where
  | typeError
  | valueError
  | indexError
  | zeroDivisionError
deriving DecidableEq

/-- Result of a Python call: a value, or a raised exception. -/
inductive PyRes (α : Type) where
  | ok (a : α)
  | err (e : Err)
deriving DecidableEq

def PyRes.map {α β : Type} (f : α → β) : PyRes α → PyRes β
  | .ok a => .ok (f a)
  | .err e => .err e

/-- The `BitValue` data: the number of bits (`self._bits`), the signedness
    flag (`self.signed`) and the stored digit string (`self._value`),
    most significant bit first. -/
structure BitValue where
  bits : Nat
  signed : Bool
  value : List Bool
deriving DecidableEq

/-- A Python value handed to the constructor or to the `value` setter.
    (`bool` is listed because `type(True) is bool` is rejected with
    `TypeError`; other unsupported types behave the same way.) -/
inductive PyVal where
  | pint (n : Int)
  | pstr (s : List Char)
  | pbv (x : BitValue)
  | pbool (b : Bool)
  | pnone
deriving DecidableEq

/-- A '0'/'1' character read back as a bit (the `[01]` digit set of the
    `_set_from_bin` regular expression). -/
def charBit : Char → Option Bool
  | '0' => some false
  | '1' => some true
  | _ => none

/-- A bit rendered as the character the Python string stores. -/
def bitChar (b : Bool) : Char := if b then '1' else '0'

/-- The `BitValue._oct` conversion map: octal digit to three binary digits. -/
def octBits : Char → Option (List Bool)
  | '0' => some [false, false, false]
  | '1' => some [false, false, true]
  | '2' => some [false, true, false]
  | '3' => some [false, true, true]
  | '4' => some [true, false, false]
  | '5' => some [true, false, true]
  | '6' => some [true, true, false]
  | '7' => some [true, true, true]
  | _ => none

/-- The `BitValue._hex` conversion map: upper-case hexadecimal digit to four
    binary digits. -/
def hexBits : Char → Option (List Bool)
  | '0' => some [false, false, false, false]
  | '1' => some [false, false, false, true]
  | '2' => some [false, false, true, false]
  | '3' => some [false, false, true, true]
  | '4' => some [false, true, false, false]
  | '5' => some [false, true, false, true]
  | '6' => some [false, true, true, false]
  | '7' => some [false, true, true, true]
  | '8' => some [true, false, false, false]
  | '9' => some [true, false, false, true]
  | 'A' => some [true, false, true, false]
  | 'B' => some [true, false, true, true]
  | 'C' => some [true, true, false, false]
  | 'D' => some [true, true, false, true]
  | 'E' => some [true, true, true, false]
  | 'F' => some [true, true, true, true]
  | _ => none

/-- Python `str.upper` on the hexadecimal digit set: `_set_from_hex` accepts
    `[\da-fA-F]` and upper-cases before the `_hex` table lookup. -/
def hexUpper : Char → Char
  | 'a' => 'A'
  | 'b' => 'B'
  | 'c' => 'C'
  | 'd' => 'D'
  | 'e' => 'E'
  | 'f' => 'F'
  | c => c

/-- `BitValue._adapt_bit_count`: left-pad the digit string with its own first
    character (signed) or with '0' (unsigned) up to `bits` characters, then
    keep the last `bits` characters (`value[-self.bits:]`, with `bits >= 1`
    guaranteed by the constructor). -/
def adapt_bit_count (bits : Nat) (signed : Bool) (value : List Bool) : List Bool :=
  let padding := if signed then value.headD false else false
  let padded := List.replicate (bits - value.length) padding ++ value
  padded.drop (padded.length - bits)

/-- `BitValue._set_from_bin`: strip an optional "0b" marker and require a
    nonempty all-`[01]` digit string (the `^(0b)?([01]+)$` regular
    expression), then adapt to the bit count; otherwise `ValueError`. -/
def set_from_bin (bits : Nat) (signed : Bool) (s : List Char) : PyRes (List Bool) :=
  let digits := match s with
    | '0' :: 'b' :: rest => rest
    | other => other
  match digits.mapM charBit with
  | some l => if l.isEmpty then .err .valueError else .ok (adapt_bit_count bits signed l)
  | none => .err .valueError

/-- `BitValue._set_from_oct`: strip an optional "0o" marker, require nonempty
    all-`[0-7]` digits, expand each through the `_oct` table and concatenate,
    then adapt to the bit count; otherwise `ValueError`. -/
def set_from_oct (bits : Nat) (signed : Bool) (s : List Char) : PyRes (List Bool) :=
  let digits := match s with
    | '0' :: 'o' :: rest => rest
    | other => other
  match digits.mapM octBits with
  | some l => if digits.isEmpty then .err .valueError else .ok (adapt_bit_count bits signed l.flatten)
  | none => .err .valueError

/-- `BitValue._set_from_hex`: strip an optional "0x" marker, require nonempty
    all-`[\da-fA-F]` digits, upper-case them and expand each through the
    `_hex` table, then adapt to the bit count; otherwise `ValueError`. -/
def set_from_hex (bits : Nat) (signed : Bool) (s : List Char) : PyRes (List Bool) :=
  let digits := match s with
    | '0' :: 'x' :: rest => rest
    | other => other
  match digits.mapM (fun c => hexBits (hexUpper c)) with
  | some l => if digits.isEmpty then .err .valueError else .ok (adapt_bit_count bits signed l.flatten)
  | none => .err .valueError

/-- `int(value, 2)`: the natural number denoted by a digit string, most
    significant bit first. -/
def bitsToNat (l : List Bool) : Nat := l.foldl (fun acc b => 2 * acc + b.toNat) 0

/-- The value of a least-significant-first digit list in base `b`. -/
def ofLsbDigits (b : Nat) : List Nat → Nat
  | [] => 0
  | d :: rest => d + b * ofLsbDigits b rest

/-- The division loop of base conversion, least significant digit first;
    structural on an explicit fuel argument (`n` itself suffices as fuel
    because `n / b < n` for `b >= 2`). -/
def baseDigitsGo (b : Nat) : Nat → Nat → List Nat
  | 0, _ => []
  | _ + 1, 0 => []
  | fuel + 1, n + 1 => (n + 1) % b :: baseDigitsGo b fuel ((n + 1) / b)

/-- Base-`b` digits of `n`, least significant first, empty for zero (the
    `while value:` loop shared by `_set_from_int` and Python's numeric
    formatting). -/
def baseDigits (b n : Nat) : List Nat := baseDigitsGo b n n

/-- The binary digit string of a natural number, most significant first,
    empty for zero: the `while` loop of `_set_from_int`, which prepends
    `value % 2` and halves until the value is exhausted. -/
def natBinDigits (n : Nat) : List Bool := ((baseDigits 2 n).map (fun d => d == 1)).reverse

/-- The one-bit full adder (the `BitValue._add` map):
    `(b1, b2, carry_in)` to `(sum, carry_out)`. -/
def addTable : Bool → Bool → Bool → Bool × Bool
  | false, false, false => (false, false)
  | false, false, true => (true, false)
  | false, true, false => (true, false)
  | false, true, true => (false, true)
  | true, false, false => (true, false)
  | true, false, true => (false, true)
  | true, true, false => (false, true)
  | true, true, true => (true, true)

/-- The ripple-carry loop of `BitValue.__add__` over least-significant-first
    digit pairs: the sums (least significant first) and the end carry. -/
def rippleAdd : List (Bool × Bool) → Bool → List Bool × Bool
  | [], c => ([], c)
  | (b1, b2) :: rest, c =>
    let sc := addTable b1 b2 c
    let tl := rippleAdd rest sc.2
    (sc.1 :: tl.1, tl.2)

/-- The digit string produced by `BitValue.__add__` on two width-`bits`
    strings: ripple-carry from the least significant end, prepend the end
    carry, and renormalize ("0b" + carry + result, adapted back to `bits`
    characters, which drops the carry digit again). -/
def add_bits (bits : Nat) (signed : Bool) (a b : List Bool) : List Bool :=
  let rc := rippleAdd (a.reverse.zip b.reverse) false
  adapt_bit_count bits signed (rc.2 :: rc.1.reverse)

/-- The width-adapted constant one, `self._normalize_value(1)`:
    `_set_from_int(1)` stores "0" + "1" adapted to the bit count. -/
def oneBits (bits : Nat) (signed : Bool) : List Bool :=
  adapt_bit_count bits signed [false, true]

/-- `BitValue._set_from_int` (never fails once the integer is parsed): the
    binary digits of the magnitude behind a leading zero sign digit, adapted
    to the width; a negative source is then negated in place.  The final
    `self.invert(); self.increment()` calls are unfolded to what they do to
    a width-`bits` string: complement every character, then ripple-add the
    width-adapted constant one. -/
def set_from_int (bits : Nat) (signed : Bool) (v : Int) : List Bool :=
  let adapted := adapt_bit_count bits signed (false :: natBinDigits v.natAbs)
  if v < 0 then add_bits bits signed (adapted.map not) (oneBits bits signed)
  else adapted

/-- Decimal digit characters for Python's `str(int)`. -/
def decDigitChar : Nat → Char
  | 0 => '0'
  | 1 => '1'
  | 2 => '2'
  | 3 => '3'
  | 4 => '4'
  | 5 => '5'
  | 6 => '6'
  | 7 => '7'
  | 8 => '8'
  | 9 => '9'
  | _ => '?'

/-- Python `str` of a natural number: decimal digits, most significant
    first, "0" for zero. -/
def natDecChars (n : Nat) : List Char :=
  if n = 0 then ['0'] else ((baseDigits 10 n).map decDigitChar).reverse

/-- Python `str` of an integer: a '-' sign for negative values, then the
    decimal digits of the magnitude. -/
def intDecChars (v : Int) : List Char :=
  if v < 0 then '-' :: natDecChars v.natAbs else natDecChars v.natAbs

/-- A decimal digit character read back as a number. -/
def decCharVal (c : Char) : Option Nat :=
  if '0' ≤ c ∧ c ≤ '9' then some (c.toNat - '0'.toNat) else none

/-- Python `int(str)` on the decimal strings reaching `_set_from_int`: an
    optional sign followed by at least one decimal digit; anything else
    raises `ValueError` ("invalid literal for int() with base 10").
    (Surrounding whitespace and underscore separators, which Python would
    also accept, never occur in this code base and are not modelled.) -/
def decDigitsVal (l : List Char) : PyRes Nat :=
  match l.mapM decCharVal with
  | some ds => if ds.isEmpty then PyRes.err .valueError
               else PyRes.ok (ds.foldl (fun acc d => 10 * acc + d) 0)
  | none => PyRes.err .valueError

def parseIntChars (s : List Char) : PyRes Int :=
  if s.headD ' ' = '-' then (decDigitsVal (s.drop 1)).map (fun (n : Nat) => -(n : Int))
  else if s.headD ' ' = '+' then (decDigitsVal (s.drop 1)).map (fun (n : Nat) => (n : Int))
  else (decDigitsVal s).map (fun (n : Nat) => (n : Int))

/-- Python `str()` of the values the setter accepts after its type check:
    an `int` renders in decimal, a `str` is itself, a `BitValue` renders via
    `__str__ = bin` as "0b" plus its digit string. -/
def pyStr : PyVal → List Char
  | .pint n => intDecChars n
  | .pstr s => s
  | .pbv x => '0' :: 'b' :: x.value.map bitChar
  | .pbool b => if b then ['T', 'r', 'u', 'e'] else ['F', 'a', 'l', 's', 'e']
  | .pnone => ['N', 'o', 'n', 'e']

/-- The string dispatch of the `value` setter: route on the first two
    characters (`value[0:2]` looked up among "0b"/"0o"/"0x"), defaulting to
    the integer setter. -/
def setterDispatch (x : BitValue) (s : List Char) : PyRes BitValue :=
  if s.take 2 = ['0', 'b'] then
    (set_from_bin x.bits x.signed s).map (fun l => { x with value := l })
  else if s.take 2 = ['0', 'o'] then
    (set_from_oct x.bits x.signed s).map (fun l => { x with value := l })
  else if s.take 2 = ['0', 'x'] then
    (set_from_hex x.bits x.signed s).map (fun l => { x with value := l })
  else (parseIntChars s).map (fun n => { x with value := set_from_int x.bits x.signed n })

/-- The `value` property setter: `None` becomes "0b0"; only `int`, `str` and
    `BitValue` operands are accepted (`TypeError` otherwise, in particular
    for `bool`); the string form of the value is dispatched on its prefix. -/
def valueSetter (x : BitValue) (v : PyVal) : PyRes BitValue :=
  match v with
  | .pnone => setterDispatch x (pyStr (.pstr ['0', 'b', '0']))
  | .pbool _ => .err .typeError
  | .pint n => setterDispatch x (pyStr (.pint n))
  | .pstr s => setterDispatch x (pyStr (.pstr s))
  | .pbv y => setterDispatch x (pyStr (.pbv y))

/-- `BitValue.__init__` with an integer bit count: the count must be
    positive (`ValueError` otherwise), then the value setter runs on the
    given value. -/
def construct (v : PyVal) (bits : Nat) (signed : Bool) : PyRes BitValue :=
  if bits < 1 then .err .valueError
  else valueSetter { bits := bits, signed := signed, value := [] } v

/-- `BitValue._normalize_value`: a `BitValue` with the receiver's bit count
    and signedness built from the given value. -/
def normalize_value (x : BitValue) (v : PyVal) : PyRes BitValue :=
  construct v x.bits x.signed

/-- The always-successful normalization of one `BitValue` to another's width
    and signedness: the "0b" rendering parses back to the same digits, so
    `_normalize_value` just adapts the stored string (see
    `normalize_value_pbv`). -/
def normBV (x y : BitValue) : BitValue :=
  { bits := x.bits, signed := x.signed, value := adapt_bit_count x.bits x.signed y.value }

/-- The three comparison answers of `BitValue.compare_to`. -/
inductive Cmp where
  | less
  | equal
  | greater
deriving DecidableEq

/-- The scan loop of `compare_to`: walk the two equal-length digit strings
    from the most significant position; the first differing position decides
    ('1' is greater than '0'); no difference means equality. -/
def cmpBits : List Bool → List Bool → Cmp
  | a :: as, b :: bs =>
    if a = b then cmpBits as bs
    else if a then .greater else .less
  | _, _ => .equal

/-- `BitValue.compare_to`: normalize the other value to the receiver's width
    and signedness; on a signed receiver two differing sign characters decide
    directly (sign '0' is greater); otherwise scan bitwise. -/
def compare_to (x : BitValue) (other : BitValue) : Cmp :=
  let o := normBV x other
  if x.signed && !(x.value.headD false == o.value.headD false) then
    (if x.value.headD false == false then Cmp.greater else Cmp.less)
  else cmpBits x.value o.value

/-- `BitValue.is_positive`: unsigned values always, otherwise sign digit '0'. -/
def is_positive (x : BitValue) : Bool :=
  if !x.signed then true else x.value.headD false == false

/-- `BitValue.__invert__`: complement every character and renormalize. -/
def bvInvert (x : BitValue) : BitValue :=
  { x with value := adapt_bit_count x.bits x.signed (x.value.map not) }

/-- `BitValue.__add__` on an already-constructed `BitValue` operand (the
    operand is normalized to the receiver's width and signedness first). -/
def bvAddB (x y : BitValue) : BitValue :=
  { x with value := add_bits x.bits x.signed x.value (normBV x y).value }

/-- `BitValue.increment`: `self.value = self + 1`; adding the normalized
    constant one replaces the stored string. -/
def bvIncrement (x : BitValue) : BitValue :=
  { x with value := add_bits x.bits x.signed x.value (oneBits x.bits x.signed) }

/-- `BitValue.__neg__`: invert, then increment (two's complement). -/
def bvNeg (x : BitValue) : BitValue := bvIncrement (bvInvert x)

/-- `BitValue.__abs__`: a copy if positive, the negation otherwise (`copy`
    re-normalizes the receiver to its own width and signedness). -/
def bvAbs (x : BitValue) : BitValue :=
  if is_positive x then normBV x x else bvNeg x

/-- `BitValue.__int__`: the magnitude comes from `abs(self)` rendered by
    `bin()` and parsed in base 2; the result is negated for a negative
    receiver. -/
def toInt (x : BitValue) : Int :=
  if is_positive x then (bitsToNat (bvAbs x).value : Int)
  else -(bitsToNat (bvAbs x).value : Int)

/-- `BitValue.__sub__`: normalize, then add the negation. -/
def bvSubB (x y : BitValue) : BitValue := bvAddB x (bvNeg (normBV x y))

/-- `BitValue.__lshift__` by a nonnegative amount: "0b" + value + "0"*n,
    parsed back as a binary literal (which truncates to the width). -/
def bvLshift (x : BitValue) (n : Nat) : PyRes BitValue :=
  (set_from_bin x.bits x.signed
      ('0' :: 'b' :: (x.value.map bitChar ++ List.replicate n '0'))).map
    (fun l => { x with value := l })

/-- `BitValue.__rshift__` by a nonnegative amount:
    "0b" + "0"*n + value[:-n], parsed back as a binary literal.  For n = 0
    Python's `value[:-0]` is `value[:0]`, the empty string, so the literal is
    just "0b" and parsing raises `ValueError`. -/
def bvRshift (x : BitValue) (n : Nat) : PyRes BitValue :=
  let kept := if n = 0 then [] else x.value.take (x.value.length - n)
  (set_from_bin x.bits x.signed
      ('0' :: 'b' :: (List.replicate n '0' ++ kept.map bitChar))).map
    (fun l => { x with value := l })

/-- The `BitValue._and` truth table. -/
def andTable : Bool → Bool → Bool
  | false, false => false
  | false, true => false
  | true, false => false
  | true, true => true

/-- The `BitValue._or` truth table. -/
def orTable : Bool → Bool → Bool
  | false, false => false
  | false, true => true
  | true, false => true
  | true, true => true

/-- The `BitValue._xor` truth table. -/
def xorTable : Bool → Bool → Bool
  | false, false => false
  | false, true => true
  | true, false => true
  | true, true => false

/-- `BitValue.__and__`: zip the receiver's string with the normalized
    operand's, map through the `_and` table, renormalize. -/
def bvAndB (x y : BitValue) : BitValue :=
  let merged := (x.value.zip (normBV x y).value).map (fun p => andTable p.1 p.2)
  { x with value := adapt_bit_count x.bits x.signed merged }

/-- `BitValue.__or__`: as `__and__` with the `_or` table. -/
def bvOrB (x y : BitValue) : BitValue :=
  let merged := (x.value.zip (normBV x y).value).map (fun p => orTable p.1 p.2)
  { x with value := adapt_bit_count x.bits x.signed merged }

/-- `BitValue.__xor__`: as `__and__` with the `_xor` table. -/
def bvXorB (x y : BitValue) : BitValue :=
  let merged := (x.value.zip (normBV x y).value).map (fun p => xorTable p.1 p.2)
  { x with value := adapt_bit_count x.bits x.signed merged }

/-- The width-adapted constant zero, `self._normalize_value(0)`. -/
def zeroNorm (x : BitValue) : BitValue :=
  { bits := x.bits, signed := x.signed, value := set_from_int x.bits x.signed 0 }

/-- The width-adapted constant one as a `BitValue`, `self._normalize_value(1)`. -/
def oneNorm (x : BitValue) : BitValue :=
  { bits := x.bits, signed := x.signed, value := set_from_int x.bits x.signed 1 }

/-- The loop of `BitValue.__mul__`: scan the multiplier's digits from the
    least significant one; on each '1' accumulate the current multiplicand,
    and shift the multiplicand left by one every step. -/
def mulLoop : List Bool → BitValue → BitValue → BitValue
  | [], _, result => result
  | bit :: rest, multiplicand, result =>
    let result := if bit then bvAddB result multiplicand else result
    mulLoop rest { multiplicand with
        value := adapt_bit_count multiplicand.bits multiplicand.signed
          (multiplicand.value ++ [false]) } result

/-- `BitValue.__mul__`: shift-and-add over the normalized multiplier,
    starting from a copy of the receiver and an accumulator of zero. -/
def bvMulB (x y : BitValue) : BitValue :=
  mulLoop (normBV x y).value.reverse (normBV x x) (zeroNorm x)

/-- The loop of `BitValue.__pow__`: scan the exponent's digits from the
    least significant one; multiply the result on each '1' and square the
    base every step. -/
def powLoop : List Bool → BitValue → BitValue → BitValue
  | [], _, result => result
  | bit :: rest, base, result =>
    let result := if bit then bvMulB result base else result
    powLoop rest (bvMulB base base) result

/-- `BitValue.__pow__`: square-and-multiply over the normalized exponent,
    starting from a copy of the receiver and a result of one. -/
def bvPowB (x y : BitValue) : BitValue :=
  powLoop (normBV x y).value.reverse (normBV x x) (oneNorm x)

/-- The `while remainder >= other` loop of `BitValue._floor_division`, with
    explicit fuel; `none` means the loop has not finished within `fuel`
    further iterations. -/
def divLoop (other : BitValue) : Nat → BitValue → BitValue → Option (BitValue × BitValue)
  | fuel, quotient, remainder =>
    if compare_to remainder other = .less then some (quotient, remainder)
    else match fuel with
      | 0 => none
      | fuel + 1 => divLoop other fuel (bvIncrement quotient) (bvSubB remainder other)

/-- `BitValue._floor_division`: normalize the divisor, raise
    `ZeroDivisionError` when its integer value is 0, then repeatedly
    subtract it from a copy of the receiver while the remainder is not
    smaller, counting iterations into the quotient. -/
def floor_division (fuel : Nat) (x : BitValue) (other : BitValue) :
    PyRes (Option (BitValue × BitValue)) :=
  let o := normBV x other
  if toInt o = 0 then .err .zeroDivisionError
  else .ok (divLoop o fuel (zeroNorm x) (normBV x x))

/-- `BitValue.bin`: "0b" plus the stored digit string. -/
def bvBin (x : BitValue) : List Char := '0' :: 'b' :: x.value.map bitChar

/-- Octal digit characters for Python's `"{:o}".format`. -/
def octDigitChar : Nat → Char
  | 0 => '0'
  | 1 => '1'
  | 2 => '2'
  | 3 => '3'
  | 4 => '4'
  | 5 => '5'
  | 6 => '6'
  | 7 => '7'
  | _ => '?'

/-- Upper-case hexadecimal digit characters: Python's `"{:x}".format`
    composed with the `.upper()` call of `BitValue.hex`. -/
def hexDigitChar : Nat → Char
  | 0 => '0'
  | 1 => '1'
  | 2 => '2'
  | 3 => '3'
  | 4 => '4'
  | 5 => '5'
  | 6 => '6'
  | 7 => '7'
  | 8 => '8'
  | 9 => '9'
  | 10 => 'A'
  | 11 => 'B'
  | 12 => 'C'
  | 13 => 'D'
  | 14 => 'E'
  | 15 => 'F'
  | _ => '?'

/-- Python's numeric formatting in base `b` with the given digit characters:
    the digits of `n`, most significant first, "0" for zero. -/
def formatBase (b : Nat) (digit : Nat → Char) (n : Nat) : List Char :=
  if n = 0 then ['0'] else ((baseDigits b n).map digit).reverse

/-- Left padding with a fill character up to a minimum width, as Python's
    `"{:>0<width><base>}"` format string does to the digit text. -/
def leftPad (c : Char) (w : Nat) (s : List Char) : List Char :=
  List.replicate (w - s.length) c ++ s

/-- `BitValue.oct`: count the characters left after stripping leading '0's,
    take `(length + 2) // 3` octal digits (ceiling division), and render
    `int(self.value, 2)` zero-padded to that many digits behind "0o". -/
def bvOct (x : BitValue) : List Char :=
  let length := (x.value.dropWhile (fun b => b == false)).length
  let octDigits := (length + 2) / 3
  '0' :: 'o' :: leftPad '0' octDigits (formatBase 8 octDigitChar (bitsToNat x.value))

/-- `BitValue.dec`: `str(int(self))`. -/
def bvDec (x : BitValue) : List Char := intDecChars (toInt x)

/-- `BitValue.hex`: count the characters left after stripping leading '0's,
    take `(length + 3) // 4` hexadecimal digits (ceiling division), and
    render `int(self.value, 2)` zero-padded to that many digits behind "0x",
    upper-cased. -/
def bvHex (x : BitValue) : List Char :=
  let length := (x.value.dropWhile (fun b => b == false)).length
  let hexDigits := (length + 3) / 4
  '0' :: 'x' :: leftPad '0' hexDigits (formatBase 16 hexDigitChar (bitsToNat x.value))

/-- `BitValue.__getitem__` with an integer key: keys outside
    `[-bits, bits)` raise `IndexError`; otherwise the right-to-left position
    is flipped to a one-character slice of the stored string. -/
def bvGetIndex (x : BitValue) (key : Int) : PyRes (List Bool) :=
  if key ≥ (x.bits : Int) ∨ key < -(x.bits : Int) then .err .indexError
  else
    let stop : Nat := if key ≥ 0 then x.bits - key.toNat else key.natAbs
    .ok ((x.value.take stop).drop (stop - 1))

/-- Python's `slice.indices` clamp of one endpoint for a unit step. -/
def clampIndex (len : Nat) (i : Int) : Nat :=
  if i < 0 then (max ((len : Int) + i) 0).toNat else min i.toNat len

/-- `BitValue.__getitem__` with a slice (endpoints and step as given, `none`
    for omitted): `slice.indices` normalizes the endpoints; any step other
    than 1 raises `ValueError` (a zero step already fails inside
    `slice.indices` itself), and the kept range is flipped from
    right-to-left to string positions. -/
def bvGetSlice (x : BitValue) (start stop step : Option Int) : PyRes (List Bool) :=
  let st := step.getD 1
  if st ≠ 1 then .err .valueError
  else
    let lo := clampIndex x.bits (start.getD 0)
    let hi := clampIndex x.bits (stop.getD (x.bits : Int))
    .ok ((x.value.take (x.bits - lo)).drop (x.bits - hi))

/-- `BitValue.__add__` with an arbitrary operand: normalizing the operand
    can raise (bad type, bad literal); the raise happens before any state is
    touched. -/
def bvAdd (x : BitValue) (v : PyVal) : PyRes BitValue :=
  (normalize_value x v).map (fun o =>
    { x with value := add_bits x.bits x.signed x.value o.value })

/-- `BitValue.__sub__` with an arbitrary operand. -/
def bvSub (x : BitValue) (v : PyVal) : PyRes BitValue :=
  (normalize_value x v).map (fun o => bvSubB x o)

/-- `BitValue.__mul__` with an arbitrary operand. -/
def bvMul (x : BitValue) (v : PyVal) : PyRes BitValue :=
  (normalize_value x v).map (fun o => bvMulB x o)

/-- `BitValue.__pow__` with an arbitrary operand. -/
def bvPow (x : BitValue) (v : PyVal) : PyRes BitValue :=
  (normalize_value x v).map (fun o => bvPowB x o)

/-- `BitValue.__and__` with an arbitrary operand. -/
def bvAnd (x : BitValue) (v : PyVal) : PyRes BitValue :=
  (normalize_value x v).map (fun o => bvAndB x o)

/-- `BitValue.__or__` with an arbitrary operand. -/
def bvOr (x : BitValue) (v : PyVal) : PyRes BitValue :=
  (normalize_value x v).map (fun o => bvOrB x o)

/-- `BitValue.__xor__` with an arbitrary operand. -/
def bvXor (x : BitValue) (v : PyVal) : PyRes BitValue :=
  (normalize_value x v).map (fun o => bvXorB x o)

/-- The shape of every in-place operator (`self.value = self <op> other;
    return self`): compute the pure result — any exception leaves the
    receiver exactly as it was, since the raise precedes the assignment —
    then commit it through the `value` setter.  The returned pair is the
    receiver's state after the call and the exception, if one was raised. -/
def inPlace (x : BitValue) (r : PyRes BitValue) : BitValue × Option Err :=
  match r with
  | .err e => (x, some e)
  | .ok s =>
    match valueSetter x (.pbv s) with
    | .err e => (x, some e)
    | .ok x2 => (x2, none)

/-- `BitValue.__iadd__`. -/
def bvIAdd (x : BitValue) (v : PyVal) : BitValue × Option Err := inPlace x (bvAdd x v)

/-- `BitValue.__isub__`. -/
def bvISub (x : BitValue) (v : PyVal) : BitValue × Option Err := inPlace x (bvSub x v)

/-- `BitValue.__imul__`. -/
def bvIMul (x : BitValue) (v : PyVal) : BitValue × Option Err := inPlace x (bvMul x v)

/-- `BitValue.__ipow__`. -/
def bvIPow (x : BitValue) (v : PyVal) : BitValue × Option Err := inPlace x (bvPow x v)

/-- `BitValue.__iand__`. -/
def bvIAnd (x : BitValue) (v : PyVal) : BitValue × Option Err := inPlace x (bvAnd x v)

/-- `BitValue.__ior__`. -/
def bvIOr (x : BitValue) (v : PyVal) : BitValue × Option Err := inPlace x (bvOr x v)

/-- `BitValue.__ixor__`. -/
def bvIXor (x : BitValue) (v : PyVal) : BitValue × Option Err := inPlace x (bvXor x v)

/-- `BitValue.__ilshift__` by a nonnegative amount. -/
def bvILshift (x : BitValue) (n : Nat) : BitValue × Option Err := inPlace x (bvLshift x n)

/-- `BitValue.__irshift__` by a nonnegative amount. -/
def bvIRshift (x : BitValue) (n : Nat) : BitValue × Option Err := inPlace x (bvRshift x n)

/-- Wholesale value reassignment (`x.value = v`) as a state transition:
    the receiver's state after the call and the exception, if any; every
    raise inside the setter precedes the first assignment to `_value`. -/
def bvSetValue (x : BitValue) (v : PyVal) : BitValue × Option Err :=
  match valueSetter x v with
  | .err e => (x, some e)
  | .ok x2 => (x2, none)

/-- `BitValue.__ifloordiv__` and `__imod__` share this: run the fueled
    division, commit the chosen component; `none` when the loop has not
    finished within the fuel. -/
def bvIFloorDiv (fuel : Nat) (x : BitValue) (other : BitValue) :
    Option (BitValue × Option Err) :=
  match floor_division fuel x other with
  | .err e => some (x, some e)
  | .ok none => none
  | .ok (some qr) => some (inPlace x (.ok qr.1))

/-- `BitValue.__imod__`: as `__ifloordiv__` with the remainder. -/
def bvIMod (fuel : Nat) (x : BitValue) (other : BitValue) :
    Option (BitValue × Option Err) :=
  match floor_division fuel x other with
  | .err e => some (x, some e)
  | .ok none => none
  | .ok (some qr) => some (inPlace x (.ok qr.2))

/-- Non-termination of division: no amount of fuel finishes the loop. -/
def divDiverges (x : BitValue) (other : BitValue) : Prop :=
  ∀ fuel : Nat, floor_division fuel x other = .ok none

/-- Groups of three digits, from the most significant end of a string whose
    length is a multiple of three (the specification's LSB-grouping, once
    the topmost group has been completed by padding). -/
def chunk3 : List Bool → List (List Bool)
  | b1 :: b2 :: b3 :: rest => [b1, b2, b3] :: chunk3 rest
  | _ => []

/-- Groups of four digits, from the most significant end of a string whose
    length is a multiple of four. -/
def chunk4 : List Bool → List (List Bool)
  | b1 :: b2 :: b3 :: b4 :: rest => [b1, b2, b3, b4] :: chunk4 rest
  | _ => []

/-- The specification's wording of the octal renderer (C8): strip leading
    zero bits, left-pad the remainder with zero bits to a whole number of
    3-bit groups, map each group through the digit table; a single "0"
    digit when no bits remain. -/
def octSpec (x : BitValue) : List Char :=
  let s := x.value.dropWhile (fun b => b == false)
  let padded := List.replicate ((3 - s.length % 3) % 3) false ++ s
  '0' :: 'o' ::
    (if s.isEmpty then ['0'] else (chunk3 padded).map (fun c => octDigitChar (bitsToNat c)))

/-- The specification's wording of the hexadecimal renderer (C8), 4-bit
    groups and upper-case digits. -/
def hexSpec (x : BitValue) : List Char :=
  let s := x.value.dropWhile (fun b => b == false)
  let padded := List.replicate ((4 - s.length % 4) % 4) false ++ s
  '0' :: 'x' ::
    (if s.isEmpty then ['0'] else (chunk4 padded).map (fun c => hexDigitChar (bitsToNat c)))

/-- Well-formedness of a `BitValue`, guaranteed by the constructor: a
    positive width and a stored string of exactly that many characters. -/
@[reducible]
def WF (x : BitValue) : Prop := 1 ≤ x.bits ∧ x.value.length = x.bits

/-- The bit at right-to-left position `i` of a digit string (position 0 is
    the least significant, hardware style). -/
def lsbGet (l : List Bool) (i : Nat) : Bool := l.getD (l.length - 1 - i) false

/-! ### Values of digit strings -/

lemma bitsToNat_nil : bitsToNat [] = 0 := rfl

lemma foldl_bits_acc (l : List Bool) (acc : Nat) :
    l.foldl (fun a b => 2 * a + b.toNat) acc = acc * 2 ^ l.length + bitsToNat l := by
  induction l generalizing acc with
  | nil => simp [bitsToNat]
  | cons b t ih =>
    simp only [List.foldl_cons, bitsToNat, List.length_cons]
    rw [ih (2 * acc + b.toNat), ih (2 * (0:Nat) + b.toNat)]
    ring

lemma bitsToNat_cons (b : Bool) (t : List Bool) :
    bitsToNat (b :: t) = b.toNat * 2 ^ t.length + bitsToNat t := by
  calc bitsToNat (b :: t) = (2 * 0 + b.toNat) * 2 ^ t.length + bitsToNat t :=
        foldl_bits_acc t (2 * 0 + b.toNat)
    _ = b.toNat * 2 ^ t.length + bitsToNat t := by ring

lemma bitsToNat_append (a b : List Bool) :
    bitsToNat (a ++ b) = bitsToNat a * 2 ^ b.length + bitsToNat b := by
  have h : bitsToNat (a ++ b) =
      List.foldl (fun acc x => 2 * acc + x.toNat) (bitsToNat a) b := by
    simp only [bitsToNat, List.foldl_append]
  rw [h, foldl_bits_acc]

lemma bitsToNat_lt (l : List Bool) : bitsToNat l < 2 ^ l.length := by
  induction l with
  | nil => simp [bitsToNat]
  | cons b t ih =>
    rw [bitsToNat_cons]
    cases b <;> simp [Bool.toNat] <;> omega

lemma bitsToNat_replicate_false (k : Nat) : bitsToNat (List.replicate k false) = 0 := by
  induction k with
  | zero => rfl
  | succ n ih => rw [List.replicate_succ, bitsToNat_cons, ih]; simp

lemma bitsToNat_replicate_false_append (k : Nat) (l : List Bool) :
    bitsToNat (List.replicate k false ++ l) = bitsToNat l := by
  rw [bitsToNat_append, bitsToNat_replicate_false]; ring

lemma bitsToNat_drop (l : List Bool) (k : Nat) :
    bitsToNat (l.drop k) = bitsToNat l % 2 ^ (l.length - k) := by
  rcases le_or_lt l.length k with h | h
  · rw [List.drop_eq_nil_of_le h]
    simp [bitsToNat_nil, Nat.sub_eq_zero_of_le h, Nat.mod_one]
  · have hd : bitsToNat (l.drop k) < 2 ^ (l.length - k) := by
      have := bitsToNat_lt (l.drop k)
      rwa [List.length_drop] at this
    have hsplit : bitsToNat l =
        bitsToNat (l.take k) * 2 ^ (l.length - k) + bitsToNat (l.drop k) := by
      conv_lhs => rw [← List.take_append_drop k l]
      rw [bitsToNat_append, List.length_drop]
    rw [hsplit, Nat.add_comm, Nat.add_mul_mod_self_right, Nat.mod_eq_of_lt hd]

lemma bitsToNat_inj {a b : List Bool} (hlen : a.length = b.length)
    (hval : bitsToNat a = bitsToNat b) : a = b := by
  induction a generalizing b with
  | nil => cases b with
    | nil => rfl
    | cons _ _ => simp at hlen
  | cons x t ih =>
    cases b with
    | nil => simp at hlen
    | cons y s =>
      simp only [List.length_cons, Nat.succ.injEq] at hlen
      rw [bitsToNat_cons, bitsToNat_cons, hlen] at hval
      have ht := bitsToNat_lt t
      have hs := bitsToNat_lt s
      rw [hlen] at ht
      have hxy : x = y := by
        cases x <;> cases y <;> simp [Bool.toNat] at hval ⊢ <;> omega
      subst hxy
      have : bitsToNat t = bitsToNat s := by
        cases x <;> simp [Bool.toNat] at hval <;> omega
      rw [ih hlen this]

lemma bitsToNat_dropWhile (l : List Bool) :
    bitsToNat (l.dropWhile (fun b => b == false)) = bitsToNat l := by
  induction l with
  | nil => rfl
  | cons b t ih =>
    cases b with
    | false => simpa [List.dropWhile, bitsToNat_cons] using ih
    | true => simp [List.dropWhile]

lemma bitsToNat_map_not (l : List Bool) :
    bitsToNat (l.map not) = 2 ^ l.length - 1 - bitsToNat l := by
  induction l with
  | nil => simp [bitsToNat]
  | cons b t ih =>
    have := bitsToNat_lt t
    rw [List.map_cons, bitsToNat_cons, bitsToNat_cons, List.length_map, ih]
    cases b <;> simp [Bool.toNat, List.length_cons] <;> omega

lemma head_true_of_dropWhile {l r : List Bool}
    (h : l.dropWhile (fun b => b == false) = r) (hr : r ≠ []) :
    r.headD false = true := by
  subst h
  induction l with
  | nil => simp at hr
  | cons b t ih =>
    cases b with
    | false => exact ih (by simpa [List.dropWhile] using hr)
    | true => simp [List.dropWhile]

/-! ### `_adapt_bit_count` -/

lemma adapt_length (bits : Nat) (signed : Bool) (v : List Bool) :
    (adapt_bit_count bits signed v).length = bits := by
  simp only [adapt_bit_count, List.length_drop, List.length_append, List.length_replicate]
  omega

lemma adapt_of_le {bits : Nat} {v : List Bool} (signed : Bool) (h : v.length ≤ bits) :
    adapt_bit_count bits signed v =
      List.replicate (bits - v.length) (if signed then v.headD false else false) ++ v := by
  simp only [adapt_bit_count]
  have : (bits - v.length) + v.length - bits = 0 := by omega
  rw [List.length_append, List.length_replicate, this, List.drop_zero]

lemma adapt_of_ge {bits : Nat} {v : List Bool} (signed : Bool) (h : bits ≤ v.length) :
    adapt_bit_count bits signed v = v.drop (v.length - bits) := by
  simp only [adapt_bit_count]
  have h0 : bits - v.length = 0 := by omega
  rw [h0, List.replicate_zero, List.nil_append]

lemma adapt_self {bits : Nat} {v : List Bool} (signed : Bool) (h : v.length = bits) :
    adapt_bit_count bits signed v = v := by
  rw [adapt_of_ge signed (le_of_eq h.symm), h, Nat.sub_self, List.drop_zero]

lemma bitsToNat_adapt_of_pad_false {bits : Nat} {signed : Bool} {v : List Bool}
    (h : signed = false ∨ v.headD false = false) :
    bitsToNat (adapt_bit_count bits signed v) = bitsToNat v % 2 ^ bits := by
  have hpad : (if signed then v.headD false else false) = false := by
    rcases h with h | h
    · simp [h]
    · cases signed
      · simp
      · simpa using h
  rcases le_or_lt v.length bits with hle | hlt
  · rw [adapt_of_le signed hle, hpad, bitsToNat_replicate_false_append,
      Nat.mod_eq_of_lt (lt_of_lt_of_le (bitsToNat_lt v) (Nat.pow_le_pow_right (by norm_num) hle))]
  · have hb : v.length - (v.length - bits) = bits := by omega
    rw [adapt_of_ge signed (le_of_lt hlt), bitsToNat_drop, hb]

/-! ### Base-conversion digits -/

lemma baseDigitsGo_spec {b : Nat} (hb : 2 ≤ b) :
    ∀ fuel n, n ≤ fuel → ofLsbDigits b (baseDigitsGo b fuel n) = n := by
  intro fuel
  induction fuel with
  | zero => intro n hn; interval_cases n; rfl
  | succ f ih =>
    intro n hn
    match n with
    | 0 => rfl
    | m + 1 =>
      have hdiv : (m + 1) / b ≤ f := by
        have h1 : (m + 1) / b < m + 1 := Nat.div_lt_self (Nat.succ_pos m) hb
        omega
      simp only [baseDigitsGo, ofLsbDigits, ih _ hdiv]
      exact Nat.mod_add_div (m + 1) b

lemma baseDigits_spec {b : Nat} (hb : 2 ≤ b) (n : Nat) :
    ofLsbDigits b (baseDigits b n) = n :=
  baseDigitsGo_spec hb n n le_rfl

lemma baseDigitsGo_lt {b : Nat} (hb : 1 ≤ b) :
    ∀ fuel n d, d ∈ baseDigitsGo b fuel n → d < b := by
  intro fuel
  induction fuel with
  | zero => intro n d hd; simp [baseDigitsGo] at hd
  | succ f ih =>
    intro n d hd
    match n with
    | 0 => simp [baseDigitsGo] at hd
    | m + 1 =>
      simp only [baseDigitsGo, List.mem_cons] at hd
      rcases hd with h | h
      · subst h; exact Nat.mod_lt _ hb
      · exact ih _ _ h

lemma baseDigits_lt {b : Nat} (hb : 1 ≤ b) (n d : Nat) (hd : d ∈ baseDigits b n) : d < b :=
  baseDigitsGo_lt hb n n d hd

lemma baseDigitsGo_length_le {b : Nat} (hb : 2 ≤ b) :
    ∀ fuel k n, n < b ^ k → (baseDigitsGo b fuel n).length ≤ k := by
  intro fuel
  induction fuel with
  | zero => intro k n _; simp [baseDigitsGo]
  | succ f ih =>
    intro k n hn
    match n with
    | 0 => simp [baseDigitsGo]
    | m + 1 =>
      match k with
      | 0 => simp at hn
      | j + 1 =>
        have hdiv : (m + 1) / b < b ^ j := by
          rw [Nat.div_lt_iff_lt_mul (by omega)]
          calc m + 1 < b ^ (j + 1) := hn
            _ = b ^ j * b := by ring
        simpa [baseDigitsGo] using ih j _ hdiv

lemma baseDigits_length_le {b : Nat} (hb : 2 ≤ b) {k n : Nat} (hn : n < b ^ k) :
    (baseDigits b n).length ≤ k :=
  baseDigitsGo_length_le hb n k n hn

lemma bitsToNat_of_binary_digits :
    ∀ ds : List Nat, (∀ d ∈ ds, d < 2) →
      bitsToNat ((ds.map (fun d => d == 1)).reverse) = ofLsbDigits 2 ds := by
  intro ds
  induction ds with
  | nil => intro _; rfl
  | cons d rest ih =>
    intro h
    have hd : d < 2 := h d (List.mem_cons_self d rest)
    have hrest := ih (fun e he => h e (List.mem_cons_of_mem d he))
    simp only [List.map_cons, List.reverse_cons, bitsToNat_append, hrest, ofLsbDigits,
      List.length_cons, List.length_nil, bitsToNat_cons, bitsToNat_nil, List.length_map,
      List.length_reverse]
    interval_cases d <;> simp [Bool.toNat] <;> ring

lemma bitsToNat_natBinDigits (n : Nat) : bitsToNat (natBinDigits n) = n := by
  rw [natBinDigits, bitsToNat_of_binary_digits _ (fun d hd => baseDigits_lt (by norm_num) n d hd),
    baseDigits_spec (by norm_num)]

lemma natBinDigits_length_le {k n : Nat} (hn : n < 2 ^ k) : (natBinDigits n).length ≤ k := by
  rw [natBinDigits, List.length_reverse, List.length_map]
  exact baseDigits_length_le (by norm_num) hn

/-! ### The ripple-carry adder -/

lemma addTable_spec (a b c : Bool) :
    (addTable a b c).1.toNat + 2 * (addTable a b c).2.toNat = a.toNat + b.toNat + c.toNat := by
  cases a <;> cases b <;> cases c <;> rfl

lemma rippleAdd_length (ps : List (Bool × Bool)) (c : Bool) :
    (rippleAdd ps c).1.length = ps.length := by
  induction ps generalizing c with
  | nil => rfl
  | cons p rest ih => simp [rippleAdd, ih]

lemma rippleAdd_spec (ps : List (Bool × Bool)) (c : Bool) :
    bitsToNat (rippleAdd ps c).1.reverse + 2 ^ ps.length * ((rippleAdd ps c).2.toNat) =
      bitsToNat (ps.map Prod.fst).reverse + bitsToNat (ps.map Prod.snd).reverse + c.toNat := by
  induction ps generalizing c with
  | nil => simp [rippleAdd, bitsToNat]
  | cons p rest ih =>
    rcases p with ⟨a, b⟩
    have hfa := addTable_spec a b c
    have hih := ih (addTable a b c).2
    simp only [rippleAdd, List.map_cons, List.reverse_cons, bitsToNat_append, List.length_cons,
      List.length_nil, bitsToNat_cons, bitsToNat_nil, List.length_reverse, rippleAdd_length,
      List.length_map]
    ring_nf
    ring_nf at hih hfa
    omega

lemma add_bits_length (bits : Nat) (signed : Bool) (a b : List Bool) :
    (add_bits bits signed a b).length = bits := adapt_length _ _ _

lemma add_bits_toNat {bits : Nat} (signed : Bool) {a b : List Bool}
    (ha : a.length = bits) (hb : b.length = bits) :
    bitsToNat (add_bits bits signed a b) = (bitsToNat a + bitsToNat b) % 2 ^ bits := by
  have hzip : (a.reverse.zip b.reverse).length = bits := by
    simp [List.length_zip, ha, hb]
  have hfst : (a.reverse.zip b.reverse).map Prod.fst = a.reverse :=
    List.map_fst_zip _ _ (by simp [ha, hb])
  have hsnd : (a.reverse.zip b.reverse).map Prod.snd = b.reverse :=
    List.map_snd_zip _ _ (by simp [ha, hb])
  have hspec := rippleAdd_spec (a.reverse.zip b.reverse) false
  rw [hfst, hsnd, hzip, List.reverse_reverse, List.reverse_reverse] at hspec
  set rc := rippleAdd (a.reverse.zip b.reverse) false with hrc
  have hlen : (rc.2 :: rc.1.reverse).length = bits + 1 := by
    simp only [List.length_cons, List.length_reverse, hrc, rippleAdd_length, hzip]
  have hS : bitsToNat rc.1.reverse < 2 ^ bits := by
    have h := bitsToNat_lt rc.1.reverse
    rw [List.length_reverse, hrc, rippleAdd_length, hzip] at h
    exact h
  have hone : (rc.2 :: rc.1.reverse).length - bits = 1 := by omega
  have hdrop : add_bits bits signed a b = (rc.2 :: rc.1.reverse).drop 1 := by
    rw [add_bits, ← hrc, adapt_of_ge _ (by omega), hone]
  rw [hdrop]
  simp only [List.drop_succ_cons, List.drop_zero]
  have hmod : bitsToNat rc.1.reverse = (bitsToNat a + bitsToNat b) % 2 ^ bits := by
    cases hc : rc.2 with
    | false =>
      rw [hc] at hspec
      simp only [Bool.toNat_false, Nat.mul_zero, Nat.add_zero] at hspec
      rw [← hspec, Nat.mod_eq_of_lt hS]
    | true =>
      rw [hc] at hspec
      simp only [Bool.toNat_false, Bool.toNat_true, Nat.mul_one, Nat.add_zero] at hspec
      have h1 : bitsToNat a + bitsToNat b = bitsToNat rc.1.reverse + 2 ^ bits := by omega
      rw [h1, Nat.add_mod_right, Nat.mod_eq_of_lt hS]
  exact hmod

/-! ### Normalization and the integer setter -/

lemma mapM_charBit_loop (l acc : List Bool) :
    List.mapM.loop charBit (l.map bitChar) acc = some (acc.reverse ++ l) := by
  induction l generalizing acc with
  | nil => simp [List.mapM.loop]
  | cons b t ih =>
    cases b <;> simp [List.mapM.loop, charBit, bitChar, ih]

lemma mapM_charBit_bitChar (l : List Bool) : (l.map bitChar).mapM charBit = some l := by
  have h := mapM_charBit_loop l []
  simpa [List.mapM] using h

lemma set_from_bin_round (bits : Nat) (signed : Bool) {l : List Bool} (hl : l ≠ []) :
    set_from_bin bits signed ('0' :: 'b' :: l.map bitChar) =
      .ok (adapt_bit_count bits signed l) := by
  simp [set_from_bin, mapM_charBit_bitChar, mapM_charBit_loop, List.isEmpty_iff, hl]

lemma pyStr_pbv (y : BitValue) : pyStr (.pbv y) = '0' :: 'b' :: y.value.map bitChar := rfl

lemma setterDispatch_pbv (x y : BitValue) (hy : y.value ≠ []) :
    setterDispatch x ('0' :: 'b' :: y.value.map bitChar) =
      .ok { x with value := adapt_bit_count x.bits x.signed y.value } := by
  unfold setterDispatch
  have hc : List.take 2 ('0' :: 'b' :: y.value.map bitChar) = ['0', 'b'] := rfl
  rw [if_pos hc, set_from_bin_round _ _ hy]
  rfl

lemma valueSetter_pbv (x y : BitValue) (hy : y.value ≠ []) :
    valueSetter x (.pbv y) = .ok { x with value := adapt_bit_count x.bits x.signed y.value } := by
  rw [valueSetter, pyStr_pbv, setterDispatch_pbv x y hy]

lemma normalize_value_pbv (x y : BitValue) (hb : 1 ≤ x.bits) (hy : y.value ≠ []) :
    normalize_value x (.pbv y) = .ok (normBV x y) := by
  rw [normalize_value, construct, if_neg (by omega)]
  rw [show ({ bits := x.bits, signed := x.signed, value := [] } : BitValue).bits = x.bits
    from rfl] at *
  have := valueSetter_pbv { bits := x.bits, signed := x.signed, value := [] } y hy
  rw [this]
  rfl

lemma normBV_length (x y : BitValue) : (normBV x y).value.length = x.bits := adapt_length _ _ _

lemma normBV_of_len {x y : BitValue} (h : y.value.length = x.bits) :
    normBV x y = { bits := x.bits, signed := x.signed, value := y.value } := by
  rw [normBV, adapt_self _ h]

lemma normBV_self {x : BitValue} (h : x.value.length = x.bits) : normBV x x = x := by
  rw [normBV_of_len h]

lemma oneBits_length (bits : Nat) (signed : Bool) : (oneBits bits signed).length = bits :=
  adapt_length _ _ _

lemma oneBits_toNat {bits : Nat} (signed : Bool) (hb : 1 ≤ bits) :
    bitsToNat (oneBits bits signed) = 1 := by
  rw [oneBits, @bitsToNat_adapt_of_pad_false bits signed [false, true] (Or.inr rfl)]
  have h1 : bitsToNat [false, true] = 1 := rfl
  rw [h1, Nat.mod_eq_of_lt]
  calc 1 < 2 ^ 1 := by norm_num
    _ ≤ 2 ^ bits := Nat.pow_le_pow_right (by norm_num) hb

lemma set_from_int_length (bits : Nat) (signed : Bool) (v : Int) :
    (set_from_int bits signed v).length = bits := by
  rw [set_from_int]
  split
  · exact add_bits_length _ _ _ _
  · exact adapt_length _ _ _

lemma set_from_int_nonneg {bits : Nat} (signed : Bool) (u : Nat) :
    set_from_int bits signed (u : Int) =
      adapt_bit_count bits signed (false :: natBinDigits u) := by
  rw [set_from_int, if_neg (by omega), Int.natAbs_ofNat]

lemma set_from_int_nonneg_toNat {bits : Nat} (signed : Bool) {u : Nat} (hu : u < 2 ^ bits) :
    bitsToNat (set_from_int bits signed (u : Int)) = u := by
  rw [set_from_int_nonneg,
    @bitsToNat_adapt_of_pad_false bits signed (false :: natBinDigits u) (Or.inr rfl),
    bitsToNat_cons]
  simp only [Bool.toNat_false, Nat.zero_mul, Nat.zero_add]
  rw [bitsToNat_natBinDigits, Nat.mod_eq_of_lt hu]

lemma zeroNorm_toNat (x : BitValue) : bitsToNat (zeroNorm x).value = 0 := by
  have h : (0 : Int) = ((0 : Nat) : Int) := rfl
  rw [zeroNorm, h]
  exact set_from_int_nonneg_toNat x.signed (pow_pos (by norm_num) _)

lemma zeroNorm_length (x : BitValue) : (zeroNorm x).value.length = x.bits := by
  simp only [zeroNorm]
  exact set_from_int_length _ _ _

lemma oneNorm_value (x : BitValue) : (oneNorm x).value = oneBits x.bits x.signed := by
  rw [oneNorm, oneBits]
  have h : (1 : Int) = ((1 : Nat) : Int) := rfl
  rw [h, set_from_int_nonneg]
  rfl

lemma set_from_int_neg_toNat {bits : Nat} (signed : Bool) {m : Nat} (h0 : 1 ≤ m)
    (hm : m ≤ 2 ^ bits) (hb : 1 ≤ bits) :
    bitsToNat (set_from_int bits signed (-(m : Int))) = (2 ^ bits - m) % 2 ^ bits := by
  have hneg : (-(m : Int)) < 0 := by
    simp only [Left.neg_neg_iff]
    exact_mod_cast h0
  have habs : (-(m : Int)).natAbs = m := by simp
  rw [set_from_int, if_pos hneg, habs]
  have hadapt : bitsToNat (adapt_bit_count bits signed (false :: natBinDigits m)) =
      m % 2 ^ bits := by
    rw [@bitsToNat_adapt_of_pad_false bits signed (false :: natBinDigits m) (Or.inr rfl),
      bitsToNat_cons]
    simp only [Bool.toNat_false, Nat.zero_mul, Nat.zero_add]
    rw [bitsToNat_natBinDigits]
  have hlen : (adapt_bit_count bits signed (false :: natBinDigits m)).length = bits :=
    adapt_length _ _ _
  have hlt : bitsToNat (adapt_bit_count bits signed (false :: natBinDigits m)) < 2 ^ bits := by
    have h := bitsToNat_lt (adapt_bit_count bits signed (false :: natBinDigits m))
    rwa [hlen] at h
  rw [add_bits_toNat signed (by rw [List.length_map, hlen]) (oneBits_length _ _),
    bitsToNat_map_not, hlen, hadapt, oneBits_toNat _ hb]
  rcases Nat.lt_or_ge m (2 ^ bits) with hcase | hcase
  · rw [Nat.mod_eq_of_lt hcase]
    have hlt1 : 2 ^ bits - 1 - m + 1 < 2 ^ bits := by omega
    have hlt2 : 2 ^ bits - m < 2 ^ bits := by omega
    rw [Nat.mod_eq_of_lt hlt1, Nat.mod_eq_of_lt hlt2]
    omega
  · have hm2 : m = 2 ^ bits := by omega
    subst hm2
    have hp : 0 < 2 ^ bits := pow_pos (by norm_num) _
    rw [Nat.mod_self]
    have h2 : 2 ^ bits - 1 - 0 + 1 = 2 ^ bits := by omega
    rw [h2, Nat.mod_self, Nat.sub_self, Nat.zero_mod]

/-! ### Arithmetic operations, semantically -/

lemma bitsToNat_adapt_of_ge {bits : Nat} {signed : Bool} {v : List Bool}
    (h : bits ≤ v.length) :
    bitsToNat (adapt_bit_count bits signed v) = bitsToNat v % 2 ^ bits := by
  have hb : v.length - (v.length - bits) = bits := by omega
  rw [adapt_of_ge signed h, bitsToNat_drop, hb]

lemma bvInvert_value {x : BitValue} (hx : x.value.length = x.bits) :
    (bvInvert x).value = x.value.map not := by
  rw [bvInvert]
  exact adapt_self _ (by rw [List.length_map, hx])

lemma bvIncrement_toNat {x : BitValue} (hx : x.value.length = x.bits) (hb : 1 ≤ x.bits) :
    bitsToNat (bvIncrement x).value = (bitsToNat x.value + 1) % 2 ^ x.bits := by
  rw [bvIncrement]
  have h := add_bits_toNat x.signed hx (oneBits_length x.bits x.signed)
  rw [h, oneBits_toNat _ hb]

lemma bvNeg_toNat {x : BitValue} (hx : x.value.length = x.bits) (hb : 1 ≤ x.bits) :
    bitsToNat (bvNeg x).value = (2 ^ x.bits - bitsToNat x.value) % 2 ^ x.bits := by
  have hu := bitsToNat_lt x.value
  rw [hx] at hu
  have hinvlen : (bvInvert x).value.length = (bvInvert x).bits := by
    rw [bvInvert_value hx, List.length_map, hx]; rfl
  rw [bvNeg, bvIncrement_toNat hinvlen hb, bvInvert_value hx, bitsToNat_map_not, hx]
  have h1 : 2 ^ x.bits - 1 - bitsToNat x.value + 1 = 2 ^ x.bits - bitsToNat x.value := by omega
  rw [h1]
  rfl

lemma bvNeg_length {x : BitValue} : (bvNeg x).value.length = x.bits :=
  add_bits_length _ _ _ _

lemma bvAddB_toNat {x : BitValue} (y : BitValue) (hx : x.value.length = x.bits) :
    bitsToNat (bvAddB x y).value =
      (bitsToNat x.value + bitsToNat (normBV x y).value) % 2 ^ x.bits := by
  rw [bvAddB]
  exact add_bits_toNat x.signed hx (normBV_length x y)

lemma bvAddB_length (x y : BitValue) : (bvAddB x y).value.length = x.bits :=
  add_bits_length _ _ _ _

lemma bvSubB_toNat {x : BitValue} (y : BitValue) (hx : x.value.length = x.bits)
    (hb : 1 ≤ x.bits) :
    bitsToNat (bvSubB x y).value =
      (bitsToNat x.value + (2 ^ x.bits - bitsToNat (normBV x y).value)) % 2 ^ x.bits := by
  have hob : (normBV x y).bits = x.bits := rfl
  have hneglen : (bvNeg (normBV x y)).value.length = x.bits := by
    rw [bvNeg_length, hob]
  rw [bvSubB, bvAddB_toNat _ hx, normBV_of_len hneglen]
  have hnn := @bvNeg_toNat (normBV x y) (by rw [normBV_length, hob]) (by rw [hob]; exact hb)
  rw [hob] at hnn
  rw [hnn, Nat.add_mod, Nat.mod_mod_of_dvd _ dvd_rfl, ← Nat.add_mod]

lemma bvSubB_length (x y : BitValue) : (bvSubB x y).value.length = x.bits :=
  add_bits_length _ _ _ _

lemma mulLoop_bits (bs : List Bool) (m res : BitValue) :
    (mulLoop bs m res).bits = res.bits ∧ (mulLoop bs m res).signed = res.signed := by
  induction bs generalizing m res with
  | nil => exact ⟨rfl, rfl⟩
  | cons bit rest ih =>
    rw [mulLoop]
    cases bit with
    | false => simpa using ih _ res
    | true => simpa using ih _ (bvAddB res m)

lemma mulLoop_length (bs : List Bool) (m : BitValue) {res : BitValue}
    (hres : res.value.length = res.bits) :
    (mulLoop bs m res).value.length = res.bits := by
  induction bs generalizing m res with
  | nil => exact hres
  | cons bit rest ih =>
    rw [mulLoop]
    cases bit with
    | false => simpa using ih _ hres
    | true =>
      have h : (bvAddB res m).value.length = (bvAddB res m).bits := bvAddB_length res m
      simpa using ih _ h

lemma mulLoop_toNat (bs : List Bool) (m res : BitValue) (hmb : m.bits = res.bits)
    (hm : m.value.length = res.bits) (hres : res.value.length = res.bits) :
    bitsToNat (mulLoop bs m res).value =
      (bitsToNat res.value + bitsToNat m.value * bitsToNat bs.reverse) % 2 ^ res.bits := by
  induction bs generalizing m res with
  | nil =>
    have := bitsToNat_lt res.value
    rw [hres] at this
    simp only [mulLoop, List.reverse_nil, bitsToNat_nil, Nat.mul_zero, Nat.add_zero]
    rw [Nat.mod_eq_of_lt this]
  | cons bit rest ih =>
    set res2 := if bit then bvAddB res m else res with hres2
    have hres2b : res2.bits = res.bits := by
      rw [hres2]; cases bit <;> rfl
    have hres2s : res2.value.length = res2.bits := by
      rw [hres2]; cases bit
      · simpa using hres
      · simpa using bvAddB_length res m
    set m2 : BitValue := { m with
        value := adapt_bit_count m.bits m.signed (m.value ++ [false]) } with hm2
    have hm2b : m2.bits = res2.bits := by rw [hres2b]; exact hmb
    have hm2len : m2.value.length = res2.bits := by
      rw [hm2]
      show (adapt_bit_count m.bits m.signed (m.value ++ [false])).length = res2.bits
      rw [adapt_length, hmb, hres2b]
    have hloop : mulLoop (bit :: rest) m res = mulLoop rest m2 res2 := by
      rw [mulLoop]
    rw [hloop, ih m2 res2 hm2b hm2len hres2s, hres2b]
    have hm2v : bitsToNat m2.value = 2 * bitsToNat m.value % 2 ^ res.bits := by
      rw [hm2]
      show bitsToNat (adapt_bit_count m.bits m.signed (m.value ++ [false])) = _
      rw [bitsToNat_adapt_of_ge (by rw [List.length_append]; omega), bitsToNat_append]
      simp only [List.length_cons, List.length_nil, bitsToNat_cons, bitsToNat_nil,
        Bool.toNat_false, pow_one, Nat.zero_mul, Nat.zero_add, Nat.add_zero]
      rw [hmb]
      ring_nf
    have hrev : bitsToNat (bit :: rest).reverse =
        2 * bitsToNat rest.reverse + bit.toNat := by
      rw [List.reverse_cons, bitsToNat_append]
      simp only [List.length_cons, List.length_nil, bitsToNat_cons, bitsToNat_nil, pow_one]
      ring_nf
    have hres2v : bitsToNat res2.value % 2 ^ res.bits =
        (bitsToNat res.value + bit.toNat * bitsToNat m.value) % 2 ^ res.bits := by
      rw [hres2]
      cases bit with
      | false =>
        rw [if_neg Bool.false_ne_true]
        simp only [Bool.toNat_false, Nat.zero_mul, Nat.add_zero]
      | true =>
        rw [if_pos rfl]
        simp only [Bool.toNat_true, Nat.one_mul]
        rw [bvAddB_toNat _ hres, normBV_of_len hm]
        exact Nat.mod_mod_of_dvd _ dvd_rfl
    have h1 : Nat.ModEq (2 ^ res.bits) (bitsToNat res2.value)
        (bitsToNat res.value + bit.toNat * bitsToNat m.value) := hres2v
    have h2 : Nat.ModEq (2 ^ res.bits) (bitsToNat m2.value) (2 * bitsToNat m.value) := by
      rw [Nat.ModEq, hm2v, Nat.mod_mod_of_dvd _ dvd_rfl]
    have h3 := h1.add (h2.mul_right (bitsToNat rest.reverse))
    have h4 : bitsToNat res.value + bit.toNat * bitsToNat m.value +
        2 * bitsToNat m.value * bitsToNat rest.reverse =
        bitsToNat res.value + bitsToNat m.value * bitsToNat (bit :: rest).reverse := by
      rw [hrev]; ring
    rw [h4] at h3
    exact h3

lemma bvMulB_toNat {x : BitValue} (y : BitValue) (hx : x.value.length = x.bits) :
    bitsToNat (bvMulB x y).value =
      (bitsToNat x.value * bitsToNat (normBV x y).value) % 2 ^ x.bits := by
  rw [bvMulB, normBV_self hx]
  have h := mulLoop_toNat (normBV x y).value.reverse x (zeroNorm x) rfl
    (by rw [hx]; rfl) (by rw [zeroNorm_length]; rfl)
  rw [h, List.reverse_reverse, zeroNorm_toNat]
  show (0 + bitsToNat x.value * bitsToNat (normBV x y).value) % 2 ^ x.bits = _
  rw [Nat.zero_add]

lemma bvMulB_bits (x y : BitValue) :
    (bvMulB x y).bits = x.bits ∧ (bvMulB x y).signed = x.signed :=
  mulLoop_bits _ _ _

lemma bvMulB_length (x y : BitValue) : (bvMulB x y).value.length = x.bits := by
  have h := @mulLoop_length (normBV x y).value.reverse (normBV x x)
    (zeroNorm x) (by rw [zeroNorm_length]; rfl)
  exact h

/-! ### The comparator, semantically -/

lemma cmpBits_equal_iff : ∀ {a b : List Bool}, a.length = b.length →
    (cmpBits a b = .equal ↔ a = b) := by
  intro a
  induction a with
  | nil =>
    intro b hlen
    cases b with
    | nil => simp [cmpBits]
    | cons _ _ => simp at hlen
  | cons x t ih =>
    intro b hlen
    cases b with
    | nil => simp at hlen
    | cons y s =>
      simp only [List.length_cons, Nat.succ.injEq] at hlen
      by_cases hxy : x = y
      · subst hxy
        rw [cmpBits, if_pos rfl]
        rw [ih hlen]
        simp
      · rw [cmpBits, if_neg hxy]
        constructor
        · intro h
          cases x <;> simp at h
        · intro h
          injection h with h1 _
          exact absurd h1 hxy

lemma cmpBits_less_iff : ∀ {a b : List Bool}, a.length = b.length →
    (cmpBits a b = .less ↔ bitsToNat a < bitsToNat b) := by
  intro a
  induction a with
  | nil =>
    intro b hlen
    cases b with
    | nil => simp [cmpBits, bitsToNat_nil]
    | cons _ _ => simp at hlen
  | cons x t ih =>
    intro b hlen
    cases b with
    | nil => simp at hlen
    | cons y s =>
      simp only [List.length_cons, Nat.succ.injEq] at hlen
      have hts := bitsToNat_lt t
      have hss := bitsToNat_lt s
      rw [bitsToNat_cons, bitsToNat_cons, hlen]
      by_cases hxy : x = y
      · subst hxy
        rw [cmpBits, if_pos rfl, ih hlen]
        cases x <;> simp [Bool.toNat] <;> omega
      · rw [cmpBits, if_neg hxy]
        rw [hlen] at hts
        cases x <;> cases y <;> simp_all [Bool.toNat] <;> omega

lemma cmpBits_greater_iff : ∀ {a b : List Bool}, a.length = b.length →
    (cmpBits a b = .greater ↔ bitsToNat b < bitsToNat a) := by
  intro a
  induction a with
  | nil =>
    intro b hlen
    cases b with
    | nil => simp [cmpBits, bitsToNat_nil]
    | cons _ _ => simp at hlen
  | cons x t ih =>
    intro b hlen
    cases b with
    | nil => simp at hlen
    | cons y s =>
      simp only [List.length_cons, Nat.succ.injEq] at hlen
      have hts := bitsToNat_lt t
      have hss := bitsToNat_lt s
      rw [bitsToNat_cons, bitsToNat_cons, hlen]
      by_cases hxy : x = y
      · subst hxy
        rw [cmpBits, if_pos rfl, ih hlen]
        cases x <;> simp [Bool.toNat] <;> omega
      · rw [cmpBits, if_neg hxy]
        rw [hlen] at hts
        cases x <;> cases y <;> simp_all [Bool.toNat] <;> omega

lemma head_true_iff_ge {l : List Bool} (hl : l ≠ []) :
    l.headD false = true ↔ 2 ^ (l.length - 1) ≤ bitsToNat l := by
  cases l with
  | nil => exact absurd rfl hl
  | cons h t =>
    have ht := bitsToNat_lt t
    rw [bitsToNat_cons]
    cases h <;> simp [Bool.toNat] <;> omega

/-- The comparison key: the scan of `compare_to` orders two same-width
    strings by this number (unsigned value, with the bias `2^(bits-1)` added
    modulo `2^bits` in the signed case, which maps two's-complement order to
    plain magnitude order). -/
def sKey (x : BitValue) : Nat :=
  if x.signed then (bitsToNat x.value + 2 ^ (x.bits - 1)) % 2 ^ x.bits
  else bitsToNat x.value

lemma two_pow_split {bits : Nat} (hb : 1 ≤ bits) :
    2 ^ bits = 2 ^ (bits - 1) + 2 ^ (bits - 1) := by
  have h : bits - 1 + 1 = bits := by omega
  calc 2 ^ bits = 2 ^ (bits - 1 + 1) := by rw [h]
    _ = 2 ^ (bits - 1) + 2 ^ (bits - 1) := by rw [pow_succ]; ring

lemma biased_of_lt {H u : Nat} (h : u < H) : (u + H) % (H + H) = u + H :=
  Nat.mod_eq_of_lt (by omega)

lemma biased_of_ge {H u : Nat} (h1 : H ≤ u) (h2 : u < H + H) :
    (u + H) % (H + H) = u - H := by
  have hsub : (u + H) - (H + H) = u - H := by omega
  rw [Nat.mod_eq_sub_mod (by omega), hsub, Nat.mod_eq_of_lt (by omega)]

lemma compare_to_char {x : BitValue} (y : BitValue) (hx : x.value.length = x.bits)
    (hb : 1 ≤ x.bits) :
    (compare_to x y = .less ↔ sKey x < sKey (normBV x y)) ∧
    (compare_to x y = .equal ↔ x.value = (normBV x y).value) ∧
    (compare_to x y = .greater ↔ sKey (normBV x y) < sKey x) := by
  set o := normBV x y with ho
  have holen : o.value.length = x.bits := normBV_length x y
  have hlen : x.value.length = o.value.length := by rw [hx, holen]
  have hxe : x.value ≠ [] := by
    intro h
    rw [h] at hx
    simp at hx
    omega
  have hoe : o.value ≠ [] := by
    intro h
    rw [h] at holen
    simp at holen
    omega
  have hux := bitsToNat_lt x.value
  have huo := bitsToNat_lt o.value
  rw [hx] at hux
  rw [holen] at huo
  have hob : o.bits = x.bits := rfl
  have hos : o.signed = x.signed := rfl
  have hsplit := two_pow_split hb
  cases hs : x.signed with
  | false =>
    have hcond : (x.signed && !(x.value.headD false == o.value.headD false)) = false := by
      rw [hs]; rfl
    rw [compare_to, ← ho, hcond, if_neg Bool.false_ne_true]
    rw [sKey, sKey, hob, hos, hs, if_neg Bool.false_ne_true, if_neg Bool.false_ne_true]
    exact ⟨cmpBits_less_iff hlen, cmpBits_equal_iff hlen, cmpBits_greater_iff hlen⟩
  | true =>
    have hkx : sKey x = (bitsToNat x.value + 2 ^ (x.bits - 1)) % 2 ^ x.bits := by
      rw [sKey, hs, if_pos rfl]
    have hko : sKey o = (bitsToNat o.value + 2 ^ (x.bits - 1)) % 2 ^ x.bits := by
      rw [sKey, hob, hos, hs, if_pos rfl]
    by_cases hheads : x.value.headD false = o.value.headD false
    · have hcond : (x.signed && !(x.value.headD false == o.value.headD false)) = false := by
        rw [hheads]; simp
      rw [compare_to, ← ho, hcond, if_neg Bool.false_ne_true]
      cases hhx : x.value.headD false with
      | false =>
        have hho : o.value.headD false = false := by rw [← hheads]; exact hhx
        have h1 : ¬ 2 ^ (x.value.length - 1) ≤ bitsToNat x.value := by
          rw [← head_true_iff_ge hxe, hhx]
          exact Bool.false_ne_true
        have h2 : ¬ 2 ^ (o.value.length - 1) ≤ bitsToNat o.value := by
          rw [← head_true_iff_ge hoe, hho]
          exact Bool.false_ne_true
        rw [hx] at h1
        rw [holen] at h2
        rw [hkx, hko, hsplit, biased_of_lt (by omega), biased_of_lt (by omega)]
        refine ⟨?_, cmpBits_equal_iff hlen, ?_⟩
        · rw [cmpBits_less_iff hlen]; omega
        · rw [cmpBits_greater_iff hlen]; omega
      | true =>
        have hho : o.value.headD false = true := by rw [← hheads]; exact hhx
        have h1 : 2 ^ (x.value.length - 1) ≤ bitsToNat x.value := by
          rw [← head_true_iff_ge hxe]; exact hhx
        have h2 : 2 ^ (o.value.length - 1) ≤ bitsToNat o.value := by
          rw [← head_true_iff_ge hoe]; exact hho
        rw [hx] at h1
        rw [holen] at h2
        rw [hkx, hko, hsplit, biased_of_ge (by omega) (by omega),
          biased_of_ge (by omega) (by omega)]
        refine ⟨?_, cmpBits_equal_iff hlen, ?_⟩
        · rw [cmpBits_less_iff hlen]; omega
        · rw [cmpBits_greater_iff hlen]; omega
    · have hbeq : (x.value.headD false == o.value.headD false) = false := by
        cases hcase : (x.value.headD false == o.value.headD false)
        · rfl
        · exact absurd (eq_of_beq hcase) hheads
      have hcond : (x.signed && !(x.value.headD false == o.value.headD false)) = true := by
        rw [hs, hbeq]
        rfl
      rw [compare_to, ← ho, hcond, if_pos rfl]
      have hne : x.value ≠ o.value := by
        intro h
        rw [h] at hheads
        exact hheads rfl
      cases hhx : x.value.headD false with
      | false =>
        have hho : o.value.headD false = true := by
          cases hh : o.value.headD false
          · rw [hhx, hh] at hheads; exact absurd rfl hheads
          · rfl
        have h1 : ¬ 2 ^ (x.value.length - 1) ≤ bitsToNat x.value := by
          rw [← head_true_iff_ge hxe, hhx]
          exact Bool.false_ne_true
        have h2 : 2 ^ (o.value.length - 1) ≤ bitsToNat o.value := by
          rw [← head_true_iff_ge hoe]; exact hho
        rw [hx] at h1
        rw [holen] at h2
        rw [hkx, hko, hsplit, biased_of_lt (by omega), biased_of_ge (by omega) (by omega)]
        refine ⟨?_, ?_, ?_⟩
        · constructor
          · intro h; exact absurd h (by decide)
          · intro h; exact absurd h (by omega)
        · constructor
          · intro h; exact absurd h (by decide)
          · intro h; exact absurd h hne
        · constructor
          · intro _; omega
          · intro _; rfl
      | true =>
        have hho : o.value.headD false = false := by
          cases hh : o.value.headD false
          · rfl
          · rw [hhx, hh] at hheads; exact absurd rfl hheads
        have h1 : 2 ^ (x.value.length - 1) ≤ bitsToNat x.value := by
          rw [← head_true_iff_ge hxe]; exact hhx
        have h2 : ¬ 2 ^ (o.value.length - 1) ≤ bitsToNat o.value := by
          rw [← head_true_iff_ge hoe, hho]
          exact Bool.false_ne_true
        rw [hx] at h1
        rw [holen] at h2
        rw [hkx, hko, hsplit, biased_of_ge (by omega) (by omega), biased_of_lt (by omega)]
        refine ⟨?_, ?_, ?_⟩
        · constructor
          · intro _; omega
          · intro _; rfl
        · constructor
          · intro h; exact absurd h (by decide)
          · intro h; exact absurd h hne
        · constructor
          · intro h; exact absurd h (by decide)
          · intro h; exact absurd h (by omega)

/-! ### Integer conversion -/

lemma bvAbs_of_positive {x : BitValue} (hp : is_positive x = true)
    (hx : x.value.length = x.bits) : bvAbs x = x := by
  rw [bvAbs, if_pos hp, normBV_self hx]

lemma toInt_of_positive {x : BitValue} (hp : is_positive x = true)
    (hx : x.value.length = x.bits) : toInt x = (bitsToNat x.value : Int) := by
  rw [toInt, if_pos hp, bvAbs_of_positive hp hx]

lemma not_positive_head {x : BitValue} (hp : is_positive x = false) :
    x.signed = true ∧ x.value.headD false = true := by
  rw [is_positive] at hp
  by_cases hs : x.signed
  · refine ⟨hs, ?_⟩
    rw [hs] at hp
    simp only [Bool.not_true, Bool.false_eq_true, if_neg] at hp
    cases hh : x.value.headD false
    · rw [hh] at hp; simp at hp
    · rfl
  · rw [Bool.not_eq_true] at hs
    rw [hs] at hp
    simp at hp

lemma toInt_of_negative {x : BitValue} (hp : is_positive x = false)
    (hx : x.value.length = x.bits) (hb : 1 ≤ x.bits) :
    toInt x = -((2 ^ x.bits - bitsToNat x.value : Nat) : Int) ∧
      2 ^ (x.bits - 1) ≤ bitsToNat x.value := by
  obtain ⟨hs, hh⟩ := not_positive_head hp
  have hxe : x.value ≠ [] := by
    intro h
    rw [h] at hx
    simp at hx
    omega
  have hgt : 2 ^ (x.bits - 1) ≤ bitsToNat x.value := by
    have h := (head_true_iff_ge hxe).mp hh
    rwa [hx] at h
  refine ⟨?_, hgt⟩
  rw [toInt, if_neg (by rw [hp]; exact Bool.false_ne_true), bvAbs, if_neg (by
    rw [hp]; exact Bool.false_ne_true)]
  rw [bvNeg_toNat hx hb]
  have hu := bitsToNat_lt x.value
  rw [hx] at hu
  have hpos : 1 ≤ bitsToNat x.value := by
    have : 1 ≤ 2 ^ (x.bits - 1) := Nat.one_le_two_pow
    omega
  rw [Nat.mod_eq_of_lt (by omega)]

lemma toInt_eq_zero_iff {x : BitValue} (hx : x.value.length = x.bits) (hb : 1 ≤ x.bits) :
    toInt x = 0 ↔ bitsToNat x.value = 0 := by
  cases hp : is_positive x with
  | true =>
    rw [toInt_of_positive hp hx]
    exact Int.natCast_eq_zero
  | false =>
    obtain ⟨hv, hgt⟩ := toInt_of_negative hp hx hb
    have hu := bitsToNat_lt x.value
    rw [hx] at hu
    have h1 : 1 ≤ 2 ^ (x.bits - 1) := Nat.one_le_two_pow
    constructor
    · intro h
      rw [hv] at h
      simp only [neg_eq_zero, Int.natCast_eq_zero] at h
      omega
    · intro h
      omega

/-! ### The division loop -/

lemma bvIncrement_shape (q : BitValue) :
    (bvIncrement q).bits = q.bits ∧ (bvIncrement q).signed = q.signed ∧
      (bvIncrement q).value.length = q.bits :=
  ⟨rfl, rfl, add_bits_length _ _ _ _⟩

lemma bvSubB_shape (r o : BitValue) :
    (bvSubB r o).bits = r.bits ∧ (bvSubB r o).signed = r.signed ∧
      (bvSubB r o).value.length = r.bits :=
  ⟨rfl, rfl, add_bits_length _ _ _ _⟩

lemma bvSubB_toNat_same {r o : BitValue} (hr : r.value.length = r.bits)
    (ho : o.value.length = r.bits) (hb : 1 ≤ r.bits) :
    bitsToNat (bvSubB r o).value =
      (bitsToNat r.value + (2 ^ r.bits - bitsToNat o.value)) % 2 ^ r.bits := by
  rw [bvSubB_toNat o hr hb, normBV_of_len ho]

lemma divLoop_ok {o : BitValue} (ho : o.value.length = o.bits) (hb : 1 ≤ o.bits) :
    ∀ fuel (q r q2 r2 : BitValue), q.bits = o.bits → q.signed = o.signed →
      r.bits = o.bits → r.signed = o.signed →
      q.value.length = o.bits → r.value.length = o.bits →
      divLoop o fuel q r = some (q2, r2) →
      q2.bits = o.bits ∧ q2.signed = o.signed ∧ q2.value.length = o.bits ∧
        r2.bits = o.bits ∧ r2.signed = o.signed ∧ r2.value.length = o.bits ∧
        compare_to r2 o = .less ∧
        (bitsToNat q2.value * bitsToNat o.value + bitsToNat r2.value) % 2 ^ o.bits =
          (bitsToNat q.value * bitsToNat o.value + bitsToNat r.value) % 2 ^ o.bits := by
  intro fuel
  induction fuel with
  | zero =>
    intro q r q2 r2 hqb hqs hrb hrs hql hrl h
    rw [divLoop] at h
    by_cases hc : compare_to r o = .less
    · rw [if_pos hc] at h
      injection h with h2
      injection h2 with hq hr
      subst hq
      subst hr
      exact ⟨hqb, hqs, hql, hrb, hrs, hrl, hc, rfl⟩
    · rw [if_neg hc] at h
      exact absurd h (by simp)
  | succ f ih =>
    intro q r q2 r2 hqb hqs hrb hrs hql hrl h
    rw [divLoop] at h
    by_cases hc : compare_to r o = .less
    · rw [if_pos hc] at h
      injection h with h2
      injection h2 with hq hr
      subst hq
      subst hr
      exact ⟨hqb, hqs, hql, hrb, hrs, hrl, hc, rfl⟩
    · rw [if_neg hc] at h
      have hq2 := bvIncrement_shape q
      have hr2 := bvSubB_shape r o
      have hrec := ih (bvIncrement q) (bvSubB r o) q2 r2
        (hq2.1.trans hqb) (hq2.2.1.trans hqs) (hr2.1.trans hrb) (hr2.2.1.trans hrs)
        (hq2.2.2.trans hqb) (hr2.2.2.trans hrb) h
      refine ⟨hrec.1, hrec.2.1, hrec.2.2.1, hrec.2.2.2.1, hrec.2.2.2.2.1,
        hrec.2.2.2.2.2.1, hrec.2.2.2.2.2.2.1, ?_⟩
      rw [hrec.2.2.2.2.2.2.2]
      have huo := bitsToNat_lt o.value
      rw [ho] at huo
      have hql2 : q.value.length = q.bits := by rw [hql, hqb]
      have hrl2 : r.value.length = r.bits := by rw [hrl, hrb]
      have hb2 : 1 ≤ q.bits := by rw [hqb]; exact hb
      have hb3 : 1 ≤ r.bits := by rw [hrb]; exact hb
      have hincr := bvIncrement_toNat hql2 hb2
      rw [hqb] at hincr
      have hsub := bvSubB_toNat_same hrl2 (by rw [ho, hrb]) hb3
      rw [hrb] at hsub
      have m1 : Nat.ModEq (2 ^ o.bits) (bitsToNat (bvIncrement q).value)
          (bitsToNat q.value + 1) := by
        rw [Nat.ModEq, hincr, Nat.mod_mod_of_dvd _ dvd_rfl]
      have m2 : Nat.ModEq (2 ^ o.bits) (bitsToNat (bvSubB r o).value)
          (bitsToNat r.value + (2 ^ o.bits - bitsToNat o.value)) := by
        rw [Nat.ModEq, hsub, Nat.mod_mod_of_dvd _ dvd_rfl]
      have m3 := (m1.mul_right (bitsToNat o.value)).add m2
      have heq : (bitsToNat q.value + 1) * bitsToNat o.value +
          (bitsToNat r.value + (2 ^ o.bits - bitsToNat o.value)) =
          bitsToNat q.value * bitsToNat o.value + bitsToNat r.value + 2 ^ o.bits := by
        have hexp : (bitsToNat q.value + 1) * bitsToNat o.value =
            bitsToNat q.value * bitsToNat o.value + bitsToNat o.value := by ring
        rw [hexp]
        have huo2 : bitsToNat o.value ≤ 2 ^ o.bits := le_of_lt huo
        generalize bitsToNat q.value * bitsToNat o.value = A
        omega
      rw [heq] at m3
      have m4 : Nat.ModEq (2 ^ o.bits)
          (bitsToNat q.value * bitsToNat o.value + bitsToNat r.value + 2 ^ o.bits)
          (bitsToNat q.value * bitsToNat o.value + bitsToNat r.value) := by
        rw [Nat.ModEq, Nat.add_mod_right]
      exact m3.trans m4

/-! ### Termination of the division loop -/

/-- The remainder after `j` unconditional iterations of the loop body's
    subtraction (a proof device for reasoning about the fueled loop). -/
def iterSub (o : BitValue) : Nat → BitValue → BitValue
  | 0, r => r
  | j + 1, r => iterSub o j (bvSubB r o)

lemma iterSub_shape (o : BitValue) :
    ∀ j (r : BitValue), (iterSub o j r).bits = r.bits ∧
      (iterSub o j r).signed = r.signed ∧
      (r.value.length = r.bits → (iterSub o j r).value.length = r.bits) := by
  intro j
  induction j with
  | zero => intro r; exact ⟨rfl, rfl, fun h => h⟩
  | succ n ih =>
    intro r
    have hs := bvSubB_shape r o
    have h := ih (bvSubB r o)
    refine ⟨h.1.trans hs.1, h.2.1.trans hs.2.1, fun _ => ?_⟩
    show (iterSub o n (bvSubB r o)).value.length = r.bits
    rw [h.2.2 (by rw [hs.2.2, hs.1]), hs.1]

lemma sKey_lt (x : BitValue) (hx : x.value.length = x.bits) : sKey x < 2 ^ x.bits := by
  have h := bitsToNat_lt x.value
  rw [hx] at h
  rw [sKey]
  split
  · exact Nat.mod_lt _ (pow_pos (by norm_num) _)
  · exact h

lemma sKey_subB {r o : BitValue} (hrb : r.bits = o.bits) (hrs : r.signed = o.signed)
    (hrl : r.value.length = o.bits) (hol : o.value.length = o.bits) (hb : 1 ≤ o.bits) :
    sKey (bvSubB r o) =
      (sKey r + (2 ^ o.bits - bitsToNat o.value)) % 2 ^ o.bits := by
  have hrl2 : r.value.length = r.bits := by rw [hrl, hrb]
  have hol2 : o.value.length = r.bits := by rw [hol, hrb]
  have hb2 : 1 ≤ r.bits := by rw [hrb]; exact hb
  have hsub := bvSubB_toNat_same hrl2 hol2 hb2
  have hsb : (bvSubB r o).bits = r.bits := rfl
  have hss : (bvSubB r o).signed = r.signed := rfl
  cases hs : r.signed with
  | false =>
    rw [sKey, sKey, hss, hsb, hs, if_neg Bool.false_ne_true, if_neg Bool.false_ne_true,
      hsub, hrb]
  | true =>
    rw [sKey, sKey, hss, hsb, hs, if_pos rfl, if_pos rfl, hsub, hrb, Nat.mod_add_mod,
      Nat.mod_add_mod]
    congr 1
    omega

lemma iterSub_sKey {o : BitValue} (hol : o.value.length = o.bits) (hb : 1 ≤ o.bits) :
    ∀ j (r : BitValue), r.bits = o.bits → r.signed = o.signed →
      r.value.length = o.bits →
      sKey (iterSub o j r) =
        (sKey r + j * (2 ^ o.bits - bitsToNat o.value)) % 2 ^ o.bits := by
  intro j
  induction j with
  | zero =>
    intro r hrb hrs hrl
    have h := sKey_lt r (by rw [hrl, hrb])
    rw [hrb] at h
    show sKey r = (sKey r + 0 * _) % 2 ^ o.bits
    rw [Nat.zero_mul, Nat.add_zero, Nat.mod_eq_of_lt h]
  | succ n ih =>
    intro r hrb hrs hrl
    have hs := bvSubB_shape r o
    have hstep := sKey_subB hrb hrs hrl hol hb
    have hrec := ih (bvSubB r o) (hs.1.trans hrb) (hs.2.1.trans hrs)
      (by rw [hs.2.2, hrb])
    show sKey (iterSub o n (bvSubB r o)) = _
    rw [hrec, hstep, Nat.mod_add_mod]
    congr 1
    ring

lemma compare_to_less_iff_sKey {r o : BitValue} (hrb : r.bits = o.bits)
    (hrs : r.signed = o.signed) (hrl : r.value.length = o.bits)
    (hol : o.value.length = o.bits) (hb : 1 ≤ o.bits) :
    (compare_to r o = .less ↔ sKey r < sKey o) := by
  have hrl2 : r.value.length = r.bits := by rw [hrl, hrb]
  have hb2 : 1 ≤ r.bits := by rw [hrb]; exact hb
  have hchar := (compare_to_char o hrl2 hb2).1
  have hnorm : normBV r o = { bits := r.bits, signed := r.signed, value := o.value } :=
    normBV_of_len (by rw [hol, hrb])
  have hkey : sKey (normBV r o) = sKey o := by
    rw [hnorm, sKey, sKey, hrb, hrs]
  rw [hchar, hkey]

lemma divLoop_isSome_of_exit {o : BitValue} :
    ∀ fuel (q r : BitValue), (∃ j, j ≤ fuel ∧ compare_to (iterSub o j r) o = .less) →
      (divLoop o fuel q r).isSome = true := by
  intro fuel
  induction fuel with
  | zero =>
    intro q r hex
    obtain ⟨j, hj, hexit⟩ := hex
    interval_cases j
    have hexit2 : compare_to r o = .less := hexit
    rw [divLoop, if_pos hexit2]
    rfl
  | succ f ih =>
    intro q r hex
    by_cases hc : compare_to r o = .less
    · rw [divLoop, if_pos hc]
      rfl
    · obtain ⟨j, hj, hexit⟩ := hex
      match j with
      | 0 => exact absurd hexit hc
      | n + 1 =>
        rw [divLoop, if_neg hc]
        exact ih (bvIncrement q) (bvSubB r o) ⟨n, by omega, hexit⟩

lemma exit_exists_easy {N n K Ko : Nat} (hn : 1 ≤ n) (hN : n ≤ N) (hK : K < N)
    (hKo : n ≤ Ko) : ∃ j, (K + j * (N - n)) % N < Ko := by
  refine ⟨K / n, ?_⟩
  have hmd := Nat.mod_add_div K n
  have hmul : (K / n) * (N - n) + (K / n) * n = (K / n) * N := by
    rw [← Nat.mul_add, Nat.sub_add_cancel hN]
  have hexp : K + (K / n) * (N - n) = K % n + (K / n) * N := by
    calc K + (K / n) * (N - n)
        = (K % n + n * (K / n)) + (K / n) * (N - n) := by rw [hmd]
      _ = K % n + ((K / n) * (N - n) + (K / n) * n) := by ring
      _ = K % n + (K / n) * N := by rw [hmul]
  have hr : K % n < n := Nat.mod_lt K hn
  rw [hexp, Nat.add_mul_mod_self_right, Nat.mod_eq_of_lt (lt_of_lt_of_le hr hN)]
  exact lt_of_lt_of_le hr hKo

lemma int_emod_modEq (a n : Int) : Int.ModEq n (a % n) a := by
  unfold Int.ModEq
  rw [Int.emod_emod_of_dvd _ dvd_rfl]

/-- The arithmetic heart of termination for a negative divisor that is not
    the minimum value: stepping by `m` modulo `2^(k+1)` eventually lands
    below `2^k - m`, because the step's two-power gcd `g` divides both `2^k`
    and `m` (so `g ≤ 2^k - m`) and a Bezout combination reaches the residue
    `K % g`. -/
lemma exit_exists_min {k m K : Nat} (hm1 : 1 ≤ m) (hmH : m < 2 ^ k)
    (hK : K < 2 ^ (k + 1)) :
    ∃ j : Nat, (K + j * m) % 2 ^ (k + 1) < 2 ^ k - m := by
  set N := 2 ^ (k + 1) with hN
  set g := Nat.gcd m N with hg
  have hNpos : 0 < N := pow_pos (by norm_num) _
  have hgpos : 0 < g := Nat.gcd_pos_of_pos_left N hm1
  have hgm : g ∣ m := Nat.gcd_dvd_left _ _
  have hgN : g ∣ N := Nat.gcd_dvd_right _ _
  have hgle : g ≤ m := Nat.le_of_dvd hm1 hgm
  obtain ⟨i, hik, hgi⟩ := (Nat.dvd_prime_pow Nat.prime_two).mp hgN
  have hilt : i < k := by
    by_contra hc
    push_neg at hc
    have h2 : (2 : Nat) ^ k ≤ 2 ^ i := Nat.pow_le_pow_right (by norm_num) hc
    rw [hgi] at hgle
    omega
  have hgH : g ∣ 2 ^ k := by
    rw [hgi]
    exact pow_dvd_pow 2 (le_of_lt hilt)
  have hgHm : g ≤ 2 ^ k - m := Nat.le_of_dvd (by omega) (Nat.dvd_sub' hgH hgm)
  have hbez := Nat.gcd_eq_gcd_ab m N
  set A := Nat.gcdA m N with hA
  set B := Nat.gcdB m N with hB
  set t : Nat := K / g with ht
  have hmd := Nat.mod_add_div K g
  set jz : Int := (-(A * t)) % N with hjz
  have hNne : (N : Int) ≠ 0 := by exact_mod_cast hNpos.ne'
  have hjz0 : 0 ≤ jz := Int.emod_nonneg _ hNne
  set j : Nat := jz.toNat with hj
  have hjc : (j : Int) = jz := Int.toNat_of_nonneg hjz0
  have c1 : Int.ModEq N (m * A) g := by
    rw [Int.modEq_iff_dvd]
    exact ⟨B, by linarith [hbez]⟩
  have c2 : Int.ModEq N ((j : Int) * m) (-((g : Int) * t)) := by
    have e1 : Int.ModEq N ((j : Int) * m) (-((A : Int) * t) * m) := by
      rw [hjc, hjz]
      exact (int_emod_modEq _ _).mul_right _
    have e3 : Int.ModEq N ((m : Int) * A * t) ((g : Int) * t) := c1.mul_right _
    have e4 : Int.ModEq N (-((A : Int) * t) * m) (-((g : Int) * t)) := by
      have e5 := e3.neg
      have e6 : (-((A : Int) * t) * m) = -((m : Int) * A * t) := by ring
      rw [e6]
      exact e5
    exact e1.trans e4
  have hgtK : (g : Int) * t = (K : Int) - ((K % g : Nat) : Int) := by
    have h5 : K % g + g * t = K := hmd
    have h6 : ((K % g : Nat) : Int) + (g : Int) * t = K := by exact_mod_cast h5
    linarith
  have c3 : Int.ModEq N ((K : Int) + (j : Int) * m) ((K % g : Nat) : Int) := by
    have e7 := (Int.ModEq.refl (K : Int)).add c2
    have e8 : (K : Int) + -((g : Int) * t) = ((K % g : Nat) : Int) := by
      rw [hgtK]
      ring
    rw [e8] at e7
    exact e7
  have hr : K % g < g := Nat.mod_lt K hgpos
  have hKgN : K % g < N := by
    calc K % g < g := hr
      _ ≤ 2 ^ k - m := hgHm
      _ ≤ 2 ^ k := Nat.sub_le _ _
      _ < N := by
        rw [hN]
        exact Nat.pow_lt_pow_succ (by norm_num)
  have hfin : (K + j * m) % N = K % g := by
    have hcast : (((K + j * m) % N : Nat) : Int) = ((K % g : Nat) : Int) := by
      rw [Int.natCast_mod]
      push_cast
      have h7 : ((K : Int) + (j : Int) * (m : Int)) % (N : Int) =
          ((K % g : Nat) : Int) % (N : Int) := c3
      rw [h7]
      rw [Int.emod_eq_of_lt (Int.natCast_nonneg _) (by exact_mod_cast hKgN)]
      exact Int.natCast_mod K g
    exact_mod_cast hcast
  refine ⟨j, ?_⟩
  rw [hfin]
  exact lt_of_lt_of_le hr hgHm

lemma minPattern_toNat (k : Nat) : bitsToNat (true :: List.replicate k false) = 2 ^ k := by
  rw [bitsToNat_cons, bitsToNat_replicate_false, List.length_replicate]
  simp

/-- Restoring division terminates whenever the normalized divisor is nonzero
    and, on a signed receiver, is not the minimum two's-complement value
    `100...0`. -/
lemma floor_division_terminates {x other : BitValue} (hx : x.value.length = x.bits)
    (hb : 1 ≤ x.bits) (hnz : toInt (normBV x other) ≠ 0)
    (hmin : ¬(x.signed = true ∧
      (normBV x other).value = true :: List.replicate (x.bits - 1) false)) :
    ∃ fuel q r, floor_division fuel x other = .ok (some (q, r)) := by
  set o := normBV x other with ho
  have hob : o.bits = x.bits := rfl
  have hos : o.signed = x.signed := rfl
  have hol : o.value.length = x.bits := normBV_length x other
  have hol2 : o.value.length = o.bits := by rw [hol, hob]
  have hb2 : 1 ≤ o.bits := by rw [hob]; exact hb
  have hn0 : bitsToNat o.value ≠ 0 := by
    intro h
    exact hnz ((toInt_eq_zero_iff hol2 hb2).mpr h)
  set n := bitsToNat o.value with hn
  have hnN : n < 2 ^ x.bits := by
    have h := bitsToNat_lt o.value
    rwa [hol] at h
  set r0 := normBV x x with hr0
  have hr0b : r0.bits = x.bits := rfl
  have hr0s : r0.signed = x.signed := rfl
  have hr0l : r0.value.length = x.bits := normBV_length x x
  have hK : sKey r0 < 2 ^ x.bits := by
    have h := sKey_lt r0 (by rw [hr0l, hr0b])
    rwa [hr0b] at h
  have hexists : ∃ j, (sKey r0 + j * (2 ^ x.bits - n)) % 2 ^ x.bits < sKey o := by
    cases hs : x.signed with
    | false =>
      have hko : sKey o = n := by
        rw [sKey, hos, hs, if_neg Bool.false_ne_true, hn]
      rw [hko]
      exact exit_exists_easy (by omega) (le_of_lt hnN) hK le_rfl
    | true =>
      have hoe : o.value ≠ [] := by
        intro h
        rw [h] at hol
        simp at hol
        omega
      have hsplit := two_pow_split hb
      have hko : sKey o = (n + 2 ^ (x.bits - 1)) % 2 ^ x.bits := by
        rw [sKey, hos, hob, hs, if_pos rfl, hn]
      cases hh : o.value.headD false with
      | false =>
        have hlt : ¬ 2 ^ (o.value.length - 1) ≤ n := by
          rw [hn, ← head_true_iff_ge hoe, hh]
          exact Bool.false_ne_true
        rw [hol] at hlt
        rw [hko, hsplit, biased_of_lt (by omega)]
        exact exit_exists_easy (by omega) (by omega) (by omega) (by omega)
      | true =>
        have hge : 2 ^ (o.value.length - 1) ≤ n := by
          rw [hn, ← head_true_iff_ge hoe]
          exact hh
        rw [hol] at hge
        have hne : n ≠ 2 ^ (x.bits - 1) := by
          intro h
          apply hmin
          refine ⟨hs, ?_⟩
          apply bitsToNat_inj
          · rw [hol]
            simp only [List.length_cons, List.length_replicate]
            omega
          · rw [minPattern_toNat, ← hn]
            exact h
        have hgt : 2 ^ (x.bits - 1) < n := lt_of_le_of_ne hge (Ne.symm hne)
        have hkk : x.bits - 1 + 1 = x.bits := by omega
        have hko2 : sKey o = 2 ^ (x.bits - 1) - (2 ^ x.bits - n) := by
          rw [hko, hsplit, biased_of_ge (by omega) (by omega)]
          omega
        rw [hko2]
        have hkpow : (2 : Nat) ^ (x.bits - 1 + 1) = 2 ^ x.bits := by rw [hkk]
        obtain ⟨j, hj⟩ := @exit_exists_min (x.bits - 1) (2 ^ x.bits - n) (sKey r0)
          (by omega) (by omega) (by rw [hkpow]; exact hK)
        rw [hkpow] at hj
        exact ⟨j, hj⟩
  obtain ⟨j, hj⟩ := hexists
  have hshape := iterSub_shape o j r0
  have hkey := iterSub_sKey hol2 hb2 j r0 (by rw [hr0b, hob]) (by rw [hr0s, hos])
    (by rw [hr0l, hob])
  have hexit : compare_to (iterSub o j r0) o = .less := by
    rw [compare_to_less_iff_sKey (by rw [hshape.1, hr0b, hob])
      (by rw [hshape.2.1, hr0s, hos])
      (by rw [hshape.2.2 (by rw [hr0l, hr0b]), hr0b, hob]) hol2 hb2]
    rw [hkey]
    exact hj
  have hsome := divLoop_isSome_of_exit j (zeroNorm x) r0 ⟨j, le_rfl, hexit⟩
  obtain ⟨qr, hqr⟩ := Option.isSome_iff_exists.mp hsome
  refine ⟨j, qr.1, qr.2, ?_⟩
  show (if toInt (normBV x other) = 0 then PyRes.err Err.zeroDivisionError
    else PyRes.ok (divLoop (normBV x other) j (zeroNorm x) (normBV x x))) =
      PyRes.ok (some (qr.1, qr.2))
  rw [if_neg hnz, ← ho, ← hr0, hqr]

/-! ### Decimal text round trip -/

lemma decCharVal_decDigitChar {d : Nat} (hd : d < 10) :
    decCharVal (decDigitChar d) = some d := by
  interval_cases d <;> rfl

lemma mapM_decCharVal_loop : ∀ (ds : List Nat) (acc : List Nat), (∀ d ∈ ds, d < 10) →
    List.mapM.loop decCharVal (ds.map decDigitChar) acc = some (acc.reverse ++ ds) := by
  intro ds
  induction ds with
  | nil => intro acc _; simp [List.mapM.loop]
  | cons d t ih =>
    intro acc h
    have hd : d < 10 := h d (List.mem_cons_self d t)
    have hrest := ih (d :: acc) (fun e he => h e (List.mem_cons_of_mem d he))
    simp [List.mapM.loop, decCharVal_decDigitChar hd, hrest]

lemma mapM_decCharVal (ds : List Nat) (h : ∀ d ∈ ds, d < 10) :
    (ds.map decDigitChar).mapM decCharVal = some ds := by
  have h2 := mapM_decCharVal_loop ds [] h
  simpa [List.mapM] using h2

lemma foldl_rev_digits (b : Nat) :
    ∀ (ls : List Nat) (acc : Nat),
      List.foldl (fun a d => b * a + d) acc ls.reverse =
        acc * b ^ ls.length + ofLsbDigits b ls := by
  intro ls
  induction ls with
  | nil => intro acc; simp [ofLsbDigits]
  | cons d t ih =>
    intro acc
    simp only [List.reverse_cons, List.foldl_append, List.foldl_cons, List.foldl_nil, ih,
      ofLsbDigits, List.length_cons]
    ring

lemma baseDigits_ne_nil {b n : Nat} (hn : 1 ≤ n) : baseDigits b n ≠ [] := by
  match n, hn with
  | m + 1, _ => simp [baseDigits, baseDigitsGo]

lemma decDigitsVal_natDecChars (n : Nat) : decDigitsVal (natDecChars n) = .ok n := by
  by_cases h0 : n = 0
  · subst h0
    decide
  · have h1 : 1 ≤ n := Nat.one_le_iff_ne_zero.mpr h0
    have hmapm := mapM_decCharVal (baseDigits 10 n).reverse
      (fun d hd => baseDigits_lt (by norm_num) n d (List.mem_reverse.mp hd))
    have hne : (baseDigits 10 n).reverse ≠ [] := fun h =>
      baseDigits_ne_nil h1 (List.reverse_eq_nil_iff.mp h)
    have hval := foldl_rev_digits 10 (baseDigits 10 n) 0
    rw [baseDigits_spec (by norm_num), Nat.zero_mul, Nat.zero_add] at hval
    rw [List.map_reverse] at hmapm
    rw [natDecChars, if_neg h0, decDigitsVal, hmapm]
    simp [List.isEmpty_iff, hne, hval]

lemma natDecChars_head (n : Nat) :
    ∃ d, d < 10 ∧ (natDecChars n).headD ' ' = decDigitChar d := by
  by_cases h0 : n = 0
  · subst h0
    exact ⟨0, by norm_num, rfl⟩
  · have h1 : 1 ≤ n := Nat.one_le_iff_ne_zero.mpr h0
    rw [natDecChars, if_neg h0, ← List.map_reverse]
    cases hds : (baseDigits 10 n).reverse with
    | nil => exact absurd (List.reverse_eq_nil_iff.mp hds) (baseDigits_ne_nil h1)
    | cons d t =>
      refine ⟨d, ?_, rfl⟩
      have hmem : d ∈ baseDigits 10 n := by
        rw [← List.mem_reverse, hds]
        exact List.mem_cons_self _ _
      exact baseDigits_lt (by norm_num) n d hmem

lemma decDigitChar_ne_dash {d : Nat} (hd : d < 10) : decDigitChar d ≠ '-' := by
  interval_cases d <;> decide

lemma decDigitChar_ne_plus {d : Nat} (hd : d < 10) : decDigitChar d ≠ '+' := by
  interval_cases d <;> decide

lemma parseIntChars_intDecChars (v : Int) : parseIntChars (intDecChars v) = .ok v := by
  by_cases hv : v < 0
  · rw [intDecChars, if_pos hv, parseIntChars]
    have hc : (('-' :: natDecChars v.natAbs).headD ' ') = '-' := rfl
    rw [if_pos hc]
    show (decDigitsVal (natDecChars v.natAbs)).map (fun (n : Nat) => -(n : Int)) = .ok v
    rw [decDigitsVal_natDecChars]
    show PyRes.ok (-(v.natAbs : Int)) = PyRes.ok v
    congr 1
    omega
  · obtain ⟨d, hd, hh⟩ := natDecChars_head v.natAbs
    rw [intDecChars, if_neg hv, parseIntChars,
      if_neg (by rw [hh]; exact decDigitChar_ne_dash hd),
      if_neg (by rw [hh]; exact decDigitChar_ne_plus hd),
      decDigitsVal_natDecChars]
    show PyRes.ok ((v.natAbs : Int)) = PyRes.ok v
    congr 1
    omega

lemma take2_ne {c : Char} {t : List Char} {y : Char} (hc : c ≠ '0') :
    (c :: t).take 2 ≠ ['0', y] := by
  intro h
  rw [List.take_succ_cons] at h
  injection h with h1 _
  exact hc h1

lemma natDecChars_take2_ne (n : Nat) (y : Char) (hy : ∀ d, d < 10 → decDigitChar d ≠ y) :
    (natDecChars n).take 2 ≠ ['0', y] := by
  by_cases h0 : n = 0
  · subst h0
    intro h
    have hlen := congrArg List.length h
    simp at hlen
    exact absurd hlen (by decide)
  · have h1 : 1 ≤ n := Nat.one_le_iff_ne_zero.mpr h0
    rw [natDecChars, if_neg h0, ← List.map_reverse]
    cases hds : (baseDigits 10 n).reverse with
    | nil => exact absurd (List.reverse_eq_nil_iff.mp hds) (baseDigits_ne_nil h1)
    | cons d1 t1 =>
      cases t1 with
      | nil =>
        intro h
        exact absurd (congrArg List.length h) (by simp)
      | cons d2 t2 =>
        intro h
        rw [List.map_cons, List.map_cons, List.take_succ_cons, List.take_succ_cons,
          List.take_zero] at h
        injection h with ha hb2
        injection hb2 with hb3 _
        have hmem : d2 ∈ baseDigits 10 n := by
          rw [← List.mem_reverse, hds]
          exact List.mem_cons_of_mem _ (List.mem_cons_self _ _)
        exact hy d2 (baseDigits_lt (by norm_num) n d2 hmem) hb3

lemma intDecChars_take2_ne (v : Int) (y : Char)
    (hy : ∀ d, d < 10 → decDigitChar d ≠ y) :
    (intDecChars v).take 2 ≠ ['0', y] := by
  by_cases hv : v < 0
  · rw [intDecChars, if_pos hv]
    exact take2_ne (by decide)
  · rw [intDecChars, if_neg hv]
    exact natDecChars_take2_ne _ y hy

lemma construct_bin {x : BitValue} (hx : x.value.length = x.bits) (hb : 1 ≤ x.bits) :
    construct (.pstr (bvBin x)) x.bits x.signed = .ok x := by
  have hne : x.value ≠ [] := by
    intro h
    rw [h] at hx
    simp at hx
    omega
  rw [construct, if_neg (by omega)]
  show setterDispatch { bits := x.bits, signed := x.signed, value := [] }
      ('0' :: 'b' :: x.value.map bitChar) = .ok x
  rw [setterDispatch_pbv _ x hne]
  rw [adapt_self x.signed hx]

lemma construct_dec {x : BitValue} (hx : x.value.length = x.bits) (hb : 1 ≤ x.bits) :
    construct (.pstr (bvDec x)) x.bits x.signed = .ok x := by
  have hu := bitsToNat_lt x.value
  rw [hx] at hu
  rw [construct, if_neg (by omega)]
  show setterDispatch { bits := x.bits, signed := x.signed, value := [] }
      (intDecChars (toInt x)) = .ok x
  rw [setterDispatch,
    if_neg (intDecChars_take2_ne _ _ (by intro d hd; interval_cases d <;> decide)),
    if_neg (intDecChars_take2_ne _ _ (by intro d hd; interval_cases d <;> decide)),
    if_neg (intDecChars_take2_ne _ _ (by intro d hd; interval_cases d <;> decide)),
    parseIntChars_intDecChars]
  simp only [PyRes.map]
  suffices h : set_from_int x.bits x.signed (toInt x) = x.value by
    rw [h]
  have hlen : (set_from_int x.bits x.signed (toInt x)).length = x.bits :=
    set_from_int_length _ _ _
  have hval : bitsToNat (set_from_int x.bits x.signed (toInt x)) = bitsToNat x.value := by
    cases hp : is_positive x with
    | true =>
      rw [toInt_of_positive hp hx]
      exact set_from_int_nonneg_toNat _ hu
    | false =>
      obtain ⟨hv, hge⟩ := toInt_of_negative hp hx hb
      rw [hv]
      have h1 : 1 ≤ 2 ^ (x.bits - 1) := Nat.one_le_two_pow
      have hm1 : 1 ≤ 2 ^ x.bits - bitsToNat x.value := by omega
      have hm2 : 2 ^ x.bits - bitsToNat x.value ≤ 2 ^ x.bits := by omega
      rw [set_from_int_neg_toNat _ hm1 hm2 hb]
      have h2 : 2 ^ x.bits - (2 ^ x.bits - bitsToNat x.value) = bitsToNat x.value := by omega
      rw [h2, Nat.mod_eq_of_lt hu]
  exact bitsToNat_inj (by rw [hlen, hx]) hval

/-! ### Octal and hexadecimal rendering -/

def octTriple (d : Nat) : List Bool :=
  [decide (d / 4 % 2 = 1), decide (d / 2 % 2 = 1), decide (d % 2 = 1)]

def hexQuad (d : Nat) : List Bool :=
  [decide (d / 8 % 2 = 1), decide (d / 4 % 2 = 1), decide (d / 2 % 2 = 1), decide (d % 2 = 1)]

lemma octBits_octDigitChar {d : Nat} (hd : d < 8) :
    octBits (octDigitChar d) = some (octTriple d) := by
  interval_cases d <;> rfl

lemma octTriple_toNat {d : Nat} (hd : d < 8) : bitsToNat (octTriple d) = d := by
  interval_cases d <;> rfl

lemma hexBits_hexDigitChar {d : Nat} (hd : d < 16) :
    hexBits (hexUpper (hexDigitChar d)) = some (hexQuad d) := by
  interval_cases d <;> rfl

lemma hexQuad_toNat {d : Nat} (hd : d < 16) : bitsToNat (hexQuad d) = d := by
  interval_cases d <;> rfl

lemma mapM_octBits_loop : ∀ (ds : List Nat) (acc : List (List Bool)), (∀ d ∈ ds, d < 8) →
    List.mapM.loop octBits (ds.map octDigitChar) acc =
      some (acc.reverse ++ ds.map octTriple) := by
  intro ds
  induction ds with
  | nil => intro acc _; simp [List.mapM.loop]
  | cons d t ih =>
    intro acc h
    have hd : d < 8 := h d (List.mem_cons_self d t)
    have hrest := ih (octTriple d :: acc) (fun e he => h e (List.mem_cons_of_mem d he))
    simp [List.mapM.loop, octBits_octDigitChar hd, hrest]

lemma mapM_octBits (ds : List Nat) (h : ∀ d ∈ ds, d < 8) :
    (ds.map octDigitChar).mapM octBits = some (ds.map octTriple) := by
  have h2 := mapM_octBits_loop ds [] h
  simpa [List.mapM] using h2

lemma mapM_hexBits_loop : ∀ (ds : List Nat) (acc : List (List Bool)), (∀ d ∈ ds, d < 16) →
    List.mapM.loop (fun c => hexBits (hexUpper c)) (ds.map hexDigitChar) acc =
      some (acc.reverse ++ ds.map hexQuad) := by
  intro ds
  induction ds with
  | nil => intro acc _; simp [List.mapM.loop]
  | cons d t ih =>
    intro acc h
    have hd : d < 16 := h d (List.mem_cons_self d t)
    have hrest := ih (hexQuad d :: acc) (fun e he => h e (List.mem_cons_of_mem d he))
    simp [List.mapM.loop, hexBits_hexDigitChar hd, hrest]

lemma mapM_hexBits (ds : List Nat) (h : ∀ d ∈ ds, d < 16) :
    (ds.map hexDigitChar).mapM (fun c => hexBits (hexUpper c)) = some (ds.map hexQuad) := by
  have h2 := mapM_hexBits_loop ds [] h
  simpa [List.mapM] using h2

lemma foldl_base_acc (b : Nat) (ls : List Nat) (acc : Nat) :
    ls.foldl (fun a d => b * a + d) acc =
      acc * b ^ ls.length + ls.foldl (fun a d => b * a + d) 0 := by
  induction ls generalizing acc with
  | nil => simp
  | cons d t ih =>
    simp only [List.foldl_cons, List.length_cons]
    rw [ih (b * acc + d), ih (b * 0 + d)]
    ring

lemma flatten_octTriple_length (ds : List Nat) :
    (ds.map octTriple).flatten.length = 3 * ds.length := by
  induction ds with
  | nil => rfl
  | cons d t ih =>
    simp only [List.map_cons, List.flatten_cons, List.length_append, ih, List.length_cons,
      octTriple, List.length_cons, List.length_nil]
    ring

lemma flatten_hexQuad_length (ds : List Nat) :
    (ds.map hexQuad).flatten.length = 4 * ds.length := by
  induction ds with
  | nil => rfl
  | cons d t ih =>
    simp only [List.map_cons, List.flatten_cons, List.length_append, ih, List.length_cons,
      hexQuad, List.length_cons, List.length_nil]
    ring

lemma bitsToNat_flatten_octTriple : ∀ (ds : List Nat), (∀ d ∈ ds, d < 8) →
    bitsToNat (ds.map octTriple).flatten = ds.foldl (fun a d => 8 * a + d) 0 := by
  intro ds
  induction ds with
  | nil => intro _; rfl
  | cons d t ih =>
    intro h
    have hd : d < 8 := h d (List.mem_cons_self d t)
    have hrest := ih (fun e he => h e (List.mem_cons_of_mem d he))
    simp only [List.map_cons, List.flatten_cons, bitsToNat_append, hrest,
      flatten_octTriple_length, octTriple_toNat hd, List.foldl_cons]
    rw [foldl_base_acc 8 t (8 * 0 + d)]
    have hpow : (2 : Nat) ^ (3 * t.length) = 8 ^ t.length := by
      rw [pow_mul]
      norm_num
    rw [hpow]
    ring

lemma bitsToNat_flatten_hexQuad : ∀ (ds : List Nat), (∀ d ∈ ds, d < 16) →
    bitsToNat (ds.map hexQuad).flatten = ds.foldl (fun a d => 16 * a + d) 0 := by
  intro ds
  induction ds with
  | nil => intro _; rfl
  | cons d t ih =>
    intro h
    have hd : d < 16 := h d (List.mem_cons_self d t)
    have hrest := ih (fun e he => h e (List.mem_cons_of_mem d he))
    simp only [List.map_cons, List.flatten_cons, bitsToNat_append, hrest,
      flatten_hexQuad_length, hexQuad_toNat hd, List.foldl_cons]
    rw [foldl_base_acc 16 t (16 * 0 + d)]
    have hpow : (2 : Nat) ^ (4 * t.length) = 16 ^ t.length := by
      rw [pow_mul]
      norm_num
    rw [hpow]
    ring

lemma foldl_base_replicate_zero (b j : Nat) (l : List Nat) :
    (List.replicate j 0 ++ l).foldl (fun a d => b * a + d) 0 =
      l.foldl (fun a d => b * a + d) 0 := by
  induction j with
  | zero => rfl
  | succ m ih =>
    simp only [List.replicate_succ, List.cons_append, List.foldl_cons, Nat.mul_zero,
      Nat.add_zero]
    exact ih

/-- The digit list (most significant first) behind Python's base formatting:
    `[0]` for zero, otherwise the division-loop digits reversed. -/
def msbDigits (b n : Nat) : List Nat := if n = 0 then [0] else (baseDigits b n).reverse

lemma formatBase_eq_map {b : Nat} {digit : Nat → Char} (h0 : digit 0 = '0') (n : Nat) :
    formatBase b digit n = (msbDigits b n).map digit := by
  rw [formatBase, msbDigits]
  split
  · rw [List.map_cons, List.map_nil, h0]
  · rw [List.map_reverse]

lemma msbDigits_lt {b n : Nat} (hb : 2 ≤ b) (d : Nat) (hd : d ∈ msbDigits b n) : d < b := by
  rw [msbDigits] at hd
  split at hd
  · simp at hd
    omega
  · exact baseDigits_lt (by omega) n d (List.mem_reverse.mp hd)

lemma msbDigits_ne_nil (b n : Nat) : msbDigits b n ≠ [] := by
  rw [msbDigits]
  split
  · simp
  · intro h
    exact baseDigits_ne_nil (Nat.one_le_iff_ne_zero.mpr (by assumption))
      (List.reverse_eq_nil_iff.mp h)

lemma msbDigits_foldl {b : Nat} (hb : 2 ≤ b) (n : Nat) :
    (msbDigits b n).foldl (fun a d => b * a + d) 0 = n := by
  rw [msbDigits]
  split
  · simp only [List.foldl_cons, List.foldl_nil, Nat.mul_zero, Nat.add_zero]
    omega
  · rw [foldl_rev_digits, baseDigits_spec hb, Nat.zero_mul, Nat.zero_add]

lemma leftPad_map {digit : Nat → Char} (h0 : digit 0 = '0') (k : Nat) (cs : List Nat) :
    leftPad '0' k (cs.map digit) =
      (List.replicate (k - cs.length) 0 ++ cs).map digit := by
  rw [leftPad, List.length_map, List.map_append, List.map_replicate, h0]

lemma take2_cons_ne {c1 c2 d1 d2 : Char} {t : List Char} (h : c2 ≠ d2 ∨ c1 ≠ d1) :
    (c1 :: c2 :: t).take 2 ≠ [d1, d2] := by
  intro he
  rw [List.take_succ_cons, List.take_succ_cons, List.take_zero] at he
  injection he with h1 h2
  injection h2 with h2 _
  rcases h with h | h
  · exact h h2
  · exact h h1

lemma set_from_oct_digits (bits : Nat) (signed : Bool) {cs : List Char}
    {L : List (List Bool)} (hm : cs.mapM octBits = some L) (hne : cs ≠ []) :
    set_from_oct bits signed ('0' :: 'o' :: cs) =
      .ok (adapt_bit_count bits signed L.flatten) := by
  have hm2 : List.mapM.loop octBits cs [] = some L := by
    simpa [List.mapM] using hm
  simp [set_from_oct, hm2, List.isEmpty_iff, hne]

lemma set_from_hex_digits (bits : Nat) (signed : Bool) {cs : List Char}
    {L : List (List Bool)} (hm : cs.mapM (fun c => hexBits (hexUpper c)) = some L)
    (hne : cs ≠ []) :
    set_from_hex bits signed ('0' :: 'x' :: cs) =
      .ok (adapt_bit_count bits signed L.flatten) := by
  have hm2 : List.mapM.loop (fun c => hexBits (hexUpper c)) cs [] = some L := by
    simpa [List.mapM] using hm
  simp [set_from_hex, hm2, List.isEmpty_iff, hne]

lemma construct_oct_unsigned {x : BitValue} (hx : x.value.length = x.bits)
    (hb : 1 ≤ x.bits) (hs : x.signed = false) :
    construct (.pstr (bvOct x)) x.bits x.signed = .ok x := by
  have hu := bitsToNat_lt x.value
  rw [hx] at hu
  set ds := List.replicate
      ((((x.value.dropWhile (fun b => b == false)).length + 2) / 3) -
        (msbDigits 8 (bitsToNat x.value)).length) 0 ++
      msbDigits 8 (bitsToNat x.value) with hds
  have hfmt : bvOct x = '0' :: 'o' :: ds.map octDigitChar := by
    rw [bvOct, formatBase_eq_map (by rfl), leftPad_map (by rfl), hds]
  have hdlt : ∀ d ∈ ds, d < 8 := by
    intro d hd
    rw [hds, List.mem_append] at hd
    rcases hd with hd | hd
    · have h2 := List.eq_of_mem_replicate hd
      omega
    · exact msbDigits_lt (by norm_num) d hd
  have hm := mapM_octBits ds hdlt
  have hne0 : ds ≠ [] := by
    rw [hds]
    intro h
    exact msbDigits_ne_nil 8 (bitsToNat x.value) (List.append_eq_nil.mp h).2
  have hcne : ds.map octDigitChar ≠ [] := by
    intro h
    exact hne0 (List.map_eq_nil.mp h)
  rw [construct, if_neg (by omega)]
  show setterDispatch { bits := x.bits, signed := x.signed, value := [] } (bvOct x) = .ok x
  have hc2 : List.take 2 ('0' :: 'o' :: ds.map octDigitChar) = ['0', 'o'] := rfl
  rw [hfmt, setterDispatch, if_neg (take2_cons_ne (Or.inl (by decide))), if_pos hc2,
    set_from_oct_digits _ _ hm hcne]
  simp only [PyRes.map]
  suffices h : adapt_bit_count x.bits x.signed (ds.map octTriple).flatten = x.value by
    rw [h]
  have hval : bitsToNat (ds.map octTriple).flatten = bitsToNat x.value := by
    rw [bitsToNat_flatten_octTriple ds hdlt, hds, foldl_base_replicate_zero,
      msbDigits_foldl (by norm_num)]
  have hadapt := @bitsToNat_adapt_of_pad_false x.bits x.signed
    (ds.map octTriple).flatten (Or.inl hs)
  rw [hval, Nat.mod_eq_of_lt hu] at hadapt
  exact bitsToNat_inj (by rw [adapt_length, hx]) hadapt

lemma construct_hex_unsigned {x : BitValue} (hx : x.value.length = x.bits)
    (hb : 1 ≤ x.bits) (hs : x.signed = false) :
    construct (.pstr (bvHex x)) x.bits x.signed = .ok x := by
  have hu := bitsToNat_lt x.value
  rw [hx] at hu
  set ds := List.replicate
      ((((x.value.dropWhile (fun b => b == false)).length + 3) / 4) -
        (msbDigits 16 (bitsToNat x.value)).length) 0 ++
      msbDigits 16 (bitsToNat x.value) with hds
  have hfmt : bvHex x = '0' :: 'x' :: ds.map hexDigitChar := by
    rw [bvHex, formatBase_eq_map (by rfl), leftPad_map (by rfl), hds]
  have hdlt : ∀ d ∈ ds, d < 16 := by
    intro d hd
    rw [hds, List.mem_append] at hd
    rcases hd with hd | hd
    · have h2 := List.eq_of_mem_replicate hd
      omega
    · exact msbDigits_lt (by norm_num) d hd
  have hm := mapM_hexBits ds hdlt
  have hne0 : ds ≠ [] := by
    rw [hds]
    intro h
    exact msbDigits_ne_nil 16 (bitsToNat x.value) (List.append_eq_nil.mp h).2
  have hcne : ds.map hexDigitChar ≠ [] := by
    intro h
    exact hne0 (List.map_eq_nil.mp h)
  rw [construct, if_neg (by omega)]
  show setterDispatch { bits := x.bits, signed := x.signed, value := [] } (bvHex x) = .ok x
  have hc2 : List.take 2 ('0' :: 'x' :: ds.map hexDigitChar) = ['0', 'x'] := rfl
  rw [hfmt, setterDispatch, if_neg (take2_cons_ne (Or.inl (by decide))),
    if_neg (take2_cons_ne (Or.inl (by decide))), if_pos hc2,
    set_from_hex_digits _ _ hm hcne]
  simp only [PyRes.map]
  suffices h : adapt_bit_count x.bits x.signed (ds.map hexQuad).flatten = x.value by
    rw [h]
  have hval : bitsToNat (ds.map hexQuad).flatten = bitsToNat x.value := by
    rw [bitsToNat_flatten_hexQuad ds hdlt, hds, foldl_base_replicate_zero,
      msbDigits_foldl (by norm_num)]
  have hadapt := @bitsToNat_adapt_of_pad_false x.bits x.signed
    (ds.map hexQuad).flatten (Or.inl hs)
  rw [hval, Nat.mod_eq_of_lt hu] at hadapt
  exact bitsToNat_inj (by rw [adapt_length, hx]) hadapt

/-! ### Digit-list structure (for the grouped rendering equivalence) -/

lemma baseDigitsGo_fuel {b : Nat} (hb : 2 ≤ b) :
    ∀ f1 f2 n, n ≤ f1 → n ≤ f2 → baseDigitsGo b f1 n = baseDigitsGo b f2 n := by
  intro f1
  induction f1 with
  | zero =>
    intro f2 n h1 h2
    interval_cases n
    cases f2 <;> rfl
  | succ g ih =>
    intro f2 n h1 h2
    match n, f2 with
    | 0, 0 => rfl
    | 0, _ + 1 => rfl
    | m + 1, 0 => exact absurd h2 (by omega)
    | m + 1, f + 1 =>
      have hlt : (m + 1) / b < m + 1 := Nat.div_lt_self (by omega) hb
      simp only [baseDigitsGo]
      rw [ih f ((m + 1) / b) (by omega) (by omega)]

lemma baseDigits_eq {b n : Nat} (hb : 2 ≤ b) (hn : 1 ≤ n) :
    baseDigits b n = n % b :: baseDigits b (n / b) := by
  match n, hn with
  | m + 1, _ =>
    show baseDigitsGo b (m + 1) (m + 1) = _
    simp only [baseDigitsGo]
    congr 1
    have hlt : (m + 1) / b < m + 1 := Nat.div_lt_self (by omega) hb
    exact baseDigitsGo_fuel hb m ((m + 1) / b) ((m + 1) / b) (by omega) le_rfl

/-- Zero digits appended up to a fixed digit count. -/
def padZeroTo (j : Nat) (l : List Nat) : List Nat := l ++ List.replicate (j - l.length) 0

lemma baseDigits_high {b : Nat} (hb : 2 ≤ b) :
    ∀ (j c q : Nat), 1 ≤ c → c < b → q < b ^ j →
      baseDigits b (c * b ^ j + q) = padZeroTo j (baseDigits b q) ++ [c] := by
  intro j
  induction j with
  | zero =>
    intro c q hc1 hcb hq
    have hq0 : q = 0 := by simpa using hq
    subst hq0
    have h1 : c * b ^ 0 + 0 = c := by ring
    rw [h1, baseDigits_eq hb hc1, Nat.mod_eq_of_lt hcb, Nat.div_eq_of_lt hcb]
    rfl
  | succ i ih =>
    intro c q hc1 hcb hq
    have hbpos : 0 < b := by omega
    have hp1 : 1 ≤ b ^ (i + 1) := Nat.one_le_pow _ _ hbpos
    have hp2 : b ^ (i + 1) ≤ c * b ^ (i + 1) := Nat.le_mul_of_pos_left _ hc1
    have hn1 : 1 ≤ c * b ^ (i + 1) + q := by omega
    have hre : c * b ^ (i + 1) + q = q + c * b ^ i * b := by ring
    have hmod : (c * b ^ (i + 1) + q) % b = q % b := by
      rw [hre, Nat.add_mul_mod_self_right]
    have hdiv : (c * b ^ (i + 1) + q) / b = c * b ^ i + q / b := by
      rw [hre, Nat.add_mul_div_right _ _ hbpos]
      ring
    rw [baseDigits_eq hb hn1, hmod, hdiv]
    by_cases hq0 : q = 0
    · subst hq0
      have hih := ih c 0 hc1 hcb (pow_pos hbpos i)
      have h2 : c * b ^ i + 0 / b = c * b ^ i + 0 := by
        rw [Nat.zero_div]
      rw [h2, hih]
      show (0 : Nat) % b :: ((baseDigits b 0 ++ List.replicate (i - 0) 0) ++ [c]) = _
      rw [padZeroTo]
      show (0 : Nat) % b :: (([] ++ List.replicate (i - 0) 0) ++ [c]) =
        (([] : List Nat) ++ List.replicate (i + 1 - 0) 0) ++ [c]
      simp [List.replicate_succ, Nat.zero_mod]
    · have hq1 : 1 ≤ q := Nat.one_le_iff_ne_zero.mpr hq0
      have hqb : q / b < b ^ i := by
        rw [Nat.div_lt_iff_lt_mul hbpos]
        calc q < b ^ (i + 1) := hq
          _ = b ^ i * b := by ring
      rw [ih c (q / b) hc1 hcb hqb]
      rw [baseDigits_eq hb hq1, padZeroTo, padZeroTo]
      simp only [List.length_cons, List.cons_append, Nat.succ_sub_succ]

lemma format_single {b : Nat} {digit : Nat → Char} (hb : 2 ≤ b) (h0 : digit 0 = '0')
    {d : Nat} (hd : d < b) : leftPad '0' 1 (formatBase b digit d) = [digit d] := by
  by_cases hd0 : d = 0
  · subst hd0
    rw [formatBase, if_pos rfl, h0]
    rfl
  · have h1 : 1 ≤ d := Nat.one_le_iff_ne_zero.mpr hd0
    have hdig : baseDigits b d = [d] := by
      rw [baseDigits_eq hb h1, Nat.mod_eq_of_lt hd, Nat.div_eq_of_lt hd]
      rfl
    rw [formatBase, if_neg hd0, hdig]
    rfl

lemma format_peel {b : Nat} {digit : Nat → Char} (hb : 2 ≤ b) (h0 : digit 0 = '0')
    {j c q : Nat} (hj : 1 ≤ j) (hc : c < b) (hq : q < b ^ j) :
    leftPad '0' (j + 1) (formatBase b digit (c * b ^ j + q)) =
      digit c :: leftPad '0' j (formatBase b digit q) := by
  have hbpos : 0 < b := by omega
  have hflen : (formatBase b digit q).length ≤ j := by
    rw [formatBase]
    split
    · simpa using hj
    · rw [List.length_reverse, List.length_map]
      exact baseDigits_length_le hb hq
  by_cases hc0 : c = 0
  · subst hc0
    rw [Nat.zero_mul, Nat.zero_add, leftPad, leftPad]
    have h2 : j + 1 - (formatBase b digit q).length =
        (j - (formatBase b digit q).length) + 1 := by omega
    rw [h2, List.replicate_succ, List.cons_append, h0]
  · have hc1 : 1 ≤ c := Nat.one_le_iff_ne_zero.mpr hc0
    have hp2 : b ^ j ≤ c * b ^ j := Nat.le_mul_of_pos_left _ hc1
    have hp1 : 1 ≤ b ^ j := Nat.one_le_pow _ _ hbpos
    have hn0 : c * b ^ j + q ≠ 0 := by omega
    have hdq : (baseDigits b q).length ≤ j := baseDigits_length_le hb hq
    rw [formatBase, if_neg hn0, baseDigits_high hb j c q hc1 hc hq]
    have hlen : ((padZeroTo j (baseDigits b q) ++ [c]).map digit).length = j + 1 := by
      rw [List.length_map, List.length_append, padZeroTo, List.length_append,
        List.length_replicate]
      simp only [List.length_cons, List.length_nil]
      omega
    rw [leftPad, List.length_reverse, hlen, Nat.sub_self, List.replicate_zero,
      List.nil_append]
    rw [List.map_append, List.reverse_append, padZeroTo, List.map_append,
      List.reverse_append, List.map_replicate, List.reverse_replicate, h0]
    show digit c :: (List.replicate (j - (baseDigits b q).length) '0' ++
      ((baseDigits b q).map digit).reverse) = _
    by_cases hq0 : q = 0
    · subst hq0
      show digit c :: (List.replicate (j - (baseDigits b 0).length) '0' ++
        ((baseDigits b 0).map digit).reverse) = digit c :: leftPad '0' j (formatBase b digit 0)
      rw [formatBase, if_pos rfl, leftPad]
      show digit c :: (List.replicate (j - 0) '0' ++ []) =
        digit c :: (List.replicate (j - 1) '0' ++ ['0'])
      rw [List.append_nil, Nat.sub_zero]
      congr 1
      have hj2 : j = (j - 1) + 1 := by omega
      rw [hj2, List.replicate_succ']
      simp
    · rw [formatBase, if_neg hq0, leftPad, List.length_reverse, List.length_map]

/-! ### Grouped rendering equals Python's padded formatting -/

lemma chunk3_cons (b1 b2 b3 : Bool) (rest : List Bool) :
    chunk3 (b1 :: b2 :: b3 :: rest) = [b1, b2, b3] :: chunk3 rest := rfl

lemma chunk4_cons (b1 b2 b3 b4 : Bool) (rest : List Bool) :
    chunk4 (b1 :: b2 :: b3 :: b4 :: rest) = [b1, b2, b3, b4] :: chunk4 rest := rfl

lemma chunk3_format : ∀ (k : Nat) (P : List Bool), 1 ≤ k → P.length = 3 * k →
    leftPad '0' k (formatBase 8 octDigitChar (bitsToNat P)) =
      (chunk3 P).map (fun C => octDigitChar (bitsToNat C)) := by
  intro k
  induction k with
  | zero => intro P h; omega
  | succ i ih =>
    intro P _ hlen
    match P, hlen with
    | b1 :: b2 :: b3 :: Q, hlen =>
      have hQ : Q.length = 3 * i := by
        simp only [List.length_cons] at hlen
        omega
      have hsplit : bitsToNat (b1 :: b2 :: b3 :: Q) =
          bitsToNat [b1, b2, b3] * 8 ^ i + bitsToNat Q := by
        have h1 : (b1 :: b2 :: b3 :: Q) = [b1, b2, b3] ++ Q := rfl
        rw [h1, bitsToNat_append, hQ]
        have h2 : (2 : Nat) ^ (3 * i) = 8 ^ i := by
          rw [pow_mul]
          norm_num
        rw [h2]
      have hd3 : bitsToNat [b1, b2, b3] < 8 := by
        have := bitsToNat_lt [b1, b2, b3]
        simpa using this
      have hQlt : bitsToNat Q < 8 ^ i := by
        have := bitsToNat_lt Q
        rw [hQ] at this
        have h2 : (2 : Nat) ^ (3 * i) = 8 ^ i := by
          rw [pow_mul]
          norm_num
        rwa [h2] at this
      rw [chunk3_cons, List.map_cons, hsplit]
      by_cases hi0 : i = 0
      · subst hi0
        have hQnil : Q = [] := List.length_eq_zero.mp (by omega)
        subst hQnil
        have h3 : bitsToNat [b1, b2, b3] * 8 ^ 0 + bitsToNat [] =
            bitsToNat [b1, b2, b3] := by
          simp [bitsToNat_nil]
        rw [h3, format_single (by norm_num) rfl hd3]
        rfl
      · have hi1 : 1 ≤ i := Nat.one_le_iff_ne_zero.mpr hi0
        rw [format_peel (by norm_num) rfl hi1 hd3 hQlt, ih Q hi1 hQ]

lemma chunk4_format : ∀ (k : Nat) (P : List Bool), 1 ≤ k → P.length = 4 * k →
    leftPad '0' k (formatBase 16 hexDigitChar (bitsToNat P)) =
      (chunk4 P).map (fun C => hexDigitChar (bitsToNat C)) := by
  intro k
  induction k with
  | zero => intro P h; omega
  | succ i ih =>
    intro P _ hlen
    match P, hlen with
    | b1 :: b2 :: b3 :: b4 :: Q, hlen =>
      have hQ : Q.length = 4 * i := by
        simp only [List.length_cons] at hlen
        omega
      have hsplit : bitsToNat (b1 :: b2 :: b3 :: b4 :: Q) =
          bitsToNat [b1, b2, b3, b4] * 16 ^ i + bitsToNat Q := by
        have h1 : (b1 :: b2 :: b3 :: b4 :: Q) = [b1, b2, b3, b4] ++ Q := rfl
        rw [h1, bitsToNat_append, hQ]
        have h2 : (2 : Nat) ^ (4 * i) = 16 ^ i := by
          rw [pow_mul]
          norm_num
        rw [h2]
      have hd4 : bitsToNat [b1, b2, b3, b4] < 16 := by
        have := bitsToNat_lt [b1, b2, b3, b4]
        simpa using this
      have hQlt : bitsToNat Q < 16 ^ i := by
        have := bitsToNat_lt Q
        rw [hQ] at this
        have h2 : (2 : Nat) ^ (4 * i) = 16 ^ i := by
          rw [pow_mul]
          norm_num
        rwa [h2] at this
      rw [chunk4_cons, List.map_cons, hsplit]
      by_cases hi0 : i = 0
      · subst hi0
        have hQnil : Q = [] := List.length_eq_zero.mp (by omega)
        subst hQnil
        have h3 : bitsToNat [b1, b2, b3, b4] * 16 ^ 0 + bitsToNat [] =
            bitsToNat [b1, b2, b3, b4] := by
          simp [bitsToNat_nil]
        rw [h3, format_single (by norm_num) rfl hd4]
        rfl
      · have hi1 : 1 ≤ i := Nat.one_le_iff_ne_zero.mpr hi0
        rw [format_peel (by norm_num) rfl hi1 hd4 hQlt, ih Q hi1 hQ]

lemma bvOct_eq_octSpec (x : BitValue) : bvOct x = octSpec x := by
  show '0' :: 'o' ::
      leftPad '0' (((x.value.dropWhile (fun b => b == false)).length + 2) / 3)
        (formatBase 8 octDigitChar (bitsToNat x.value)) =
    '0' :: 'o' ::
      (if (x.value.dropWhile (fun b => b == false)).isEmpty then ['0']
       else (chunk3 (List.replicate
           ((3 - (x.value.dropWhile (fun b => b == false)).length % 3) % 3) false ++
           x.value.dropWhile (fun b => b == false))).map
         (fun c => octDigitChar (bitsToNat c)))
  have hdrop : bitsToNat (x.value.dropWhile (fun b => b == false)) = bitsToNat x.value :=
    bitsToNat_dropWhile x.value
  by_cases hnil : x.value.dropWhile (fun b => b == false) = []
  · rw [hnil]
    have h0 : bitsToNat x.value = 0 := by rw [← hdrop, hnil]; rfl
    rw [h0]
    rfl
  · rw [if_neg (by simpa [List.isEmpty_iff] using hnil)]
    set s := x.value.dropWhile (fun b => b == false) with hs
    have hL : 1 ≤ s.length := by
      cases hsn : s with
      | nil => exact absurd hsn hnil
      | cons a t => simp [hsn]
    have hk1 : 1 ≤ (s.length + 2) / 3 := by omega
    have hplen : (List.replicate ((3 - s.length % 3) % 3) false ++ s).length =
        3 * ((s.length + 2) / 3) := by
      rw [List.length_append, List.length_replicate]
      omega
    have hpval : bitsToNat (List.replicate ((3 - s.length % 3) % 3) false ++ s) =
        bitsToNat x.value := by
      rw [bitsToNat_replicate_false_append, hdrop]
    rw [← hpval]
    exact congrArg (fun l => '0' :: 'o' :: l)
      (chunk3_format ((s.length + 2) / 3) _ hk1 hplen)

lemma bvHex_eq_hexSpec (x : BitValue) : bvHex x = hexSpec x := by
  show '0' :: 'x' ::
      leftPad '0' (((x.value.dropWhile (fun b => b == false)).length + 3) / 4)
        (formatBase 16 hexDigitChar (bitsToNat x.value)) =
    '0' :: 'x' ::
      (if (x.value.dropWhile (fun b => b == false)).isEmpty then ['0']
       else (chunk4 (List.replicate
           ((4 - (x.value.dropWhile (fun b => b == false)).length % 4) % 4) false ++
           x.value.dropWhile (fun b => b == false))).map
         (fun c => hexDigitChar (bitsToNat c)))
  have hdrop : bitsToNat (x.value.dropWhile (fun b => b == false)) = bitsToNat x.value :=
    bitsToNat_dropWhile x.value
  by_cases hnil : x.value.dropWhile (fun b => b == false) = []
  · rw [hnil]
    have h0 : bitsToNat x.value = 0 := by rw [← hdrop, hnil]; rfl
    rw [h0]
    rfl
  · rw [if_neg (by simpa [List.isEmpty_iff] using hnil)]
    set s := x.value.dropWhile (fun b => b == false) with hs
    have hL : 1 ≤ s.length := by
      cases hsn : s with
      | nil => exact absurd hsn hnil
      | cons a t => simp [hsn]
    have hk1 : 1 ≤ (s.length + 3) / 4 := by omega
    have hplen : (List.replicate ((4 - s.length % 4) % 4) false ++ s).length =
        4 * ((s.length + 3) / 4) := by
      rw [List.length_append, List.length_replicate]
      omega
    have hpval : bitsToNat (List.replicate ((4 - s.length % 4) % 4) false ++ s) =
        bitsToNat x.value := by
      rw [bitsToNat_replicate_false_append, hdrop]
    rw [← hpval]
    exact congrArg (fun l => '0' :: 'x' :: l)
      (chunk4_format ((s.length + 3) / 4) _ hk1 hplen)

/-! ### Division diverges at the signed minimum divisor -/

lemma divMin_loop : ∀ (fuel : Nat) (q : BitValue),
    divLoop ⟨4, true, [true, false, false, false]⟩ fuel q
      ⟨4, true, [false, false, false, false]⟩ = none ∧
    divLoop ⟨4, true, [true, false, false, false]⟩ fuel q
      ⟨4, true, [true, false, false, false]⟩ = none := by
  intro fuel
  induction fuel with
  | zero =>
    intro q
    exact ⟨by rw [divLoop, if_neg (by decide)], by rw [divLoop, if_neg (by decide)]⟩
  | succ n ih =>
    intro q
    constructor
    · rw [divLoop, if_neg (by decide)]
      show divLoop ⟨4, true, [true, false, false, false]⟩ n (bvIncrement q)
        (bvSubB ⟨4, true, [false, false, false, false]⟩
          ⟨4, true, [true, false, false, false]⟩) = none
      have hsub : bvSubB ⟨4, true, [false, false, false, false]⟩
          ⟨4, true, [true, false, false, false]⟩ =
          ⟨4, true, [true, false, false, false]⟩ := by decide
      rw [hsub]
      exact (ih (bvIncrement q)).2
    · rw [divLoop, if_neg (by decide)]
      show divLoop ⟨4, true, [true, false, false, false]⟩ n (bvIncrement q)
        (bvSubB ⟨4, true, [true, false, false, false]⟩
          ⟨4, true, [true, false, false, false]⟩) = none
      have hsub : bvSubB ⟨4, true, [true, false, false, false]⟩
          ⟨4, true, [true, false, false, false]⟩ =
          ⟨4, true, [false, false, false, false]⟩ := by decide
      rw [hsub]
      exact (ih (bvIncrement q)).1

lemma divMin_diverges : divDiverges ⟨4, true, [false, false, false, false]⟩
    ⟨4, true, [true, false, false, false]⟩ := by
  intro fuel
  show (if toInt (normBV ⟨4, true, [false, false, false, false]⟩
        ⟨4, true, [true, false, false, false]⟩) = 0
      then PyRes.err Err.zeroDivisionError
      else PyRes.ok (divLoop (normBV ⟨4, true, [false, false, false, false]⟩
        ⟨4, true, [true, false, false, false]⟩) fuel
        (zeroNorm ⟨4, true, [false, false, false, false]⟩)
        (normBV ⟨4, true, [false, false, false, false]⟩
          ⟨4, true, [false, false, false, false]⟩))) = PyRes.ok none
  rw [if_neg (by decide)]
  have h1 : normBV ⟨4, true, [false, false, false, false]⟩
      ⟨4, true, [true, false, false, false]⟩ =
      ⟨4, true, [true, false, false, false]⟩ := by decide
  have h2 : zeroNorm ⟨4, true, [false, false, false, false]⟩ =
      ⟨4, true, [false, false, false, false]⟩ := by decide
  have h3 : normBV ⟨4, true, [false, false, false, false]⟩
      ⟨4, true, [false, false, false, false]⟩ =
      ⟨4, true, [false, false, false, false]⟩ := by decide
  rw [h1, h2, h3, (divMin_loop fuel _).1]

/-! ### Positional reading of the adapted operand (C7) -/

lemma lsbGet_adapt (bits : Nat) (signed : Bool) (v : List Bool) {i : Nat} (hi : i < bits) :
    lsbGet (adapt_bit_count bits signed v) i =
      if i < v.length then lsbGet v i
      else (if signed then v.headD false else false) := by
  rcases le_or_lt v.length bits with hle | hlt
  · rw [adapt_of_le signed hle, lsbGet]
    have hlen : (List.replicate (bits - v.length)
        (if signed then v.headD false else false) ++ v).length = bits := by
      rw [List.length_append, List.length_replicate]
      omega
    rw [hlen]
    by_cases hiv : i < v.length
    · rw [if_pos hiv, List.getD_eq_getElem?_getD,
        List.getElem?_append_right (by rw [List.length_replicate]; omega),
        List.length_replicate]
      have hpos : bits - 1 - i - (bits - v.length) = v.length - 1 - i := by omega
      rw [hpos, lsbGet, List.getD_eq_getElem?_getD]
    · rw [if_neg hiv, List.getD_eq_getElem?_getD, List.getElem?_append,
        if_pos (by rw [List.length_replicate]; omega),
        List.getElem?_replicate, if_pos (by omega)]
      rfl
  · have hib : i < v.length := by omega
    rw [adapt_of_ge signed (le_of_lt hlt), if_pos hib, lsbGet, lsbGet,
      List.length_drop, List.getD_eq_getElem?_getD, List.getD_eq_getElem?_getD,
      List.getElem?_drop]
    have hidx : v.length - bits + (v.length - (v.length - bits) - 1 - i) =
        v.length - 1 - i := by omega
    rw [hidx]

lemma zip_map_eq_zipWith (f : Bool → Bool → Bool) :
    ∀ (a b : List Bool), (a.zip b).map (fun p => f p.1 p.2) = List.zipWith f a b := by
  intro a
  induction a with
  | nil => intro b; rfl
  | cons x xs ih =>
    intro b
    cases b with
    | nil => rfl
    | cons y ys => simp [List.zip_cons_cons, ih]

lemma lsbGet_zipWith (f : Bool → Bool → Bool) {a b : List Bool}
    (hab : a.length = b.length) {i : Nat} (hi : i < a.length) :
    lsbGet (List.zipWith f a b) i = f (lsbGet a i) (lsbGet b i) := by
  have hzlen : (List.zipWith f a b).length = a.length := by
    rw [List.length_zipWith, hab, Nat.min_self]
  have hpos : a.length - 1 - i < a.length := by omega
  rw [lsbGet, lsbGet, lsbGet, hzlen, hab,
    List.getD_eq_getElem (List.zipWith f a b) false (by rw [hzlen, ← hab]; omega),
    List.getD_eq_getElem a false (by omega),
    List.getD_eq_getElem b false (by rw [← hab, hab]; omega),
    List.getElem_zipWith]

/-- The bit the normalized operand contributes at right-to-left position `i`
    (for `i` below the receiver's width): the operand's own bit where one
    exists, otherwise the padding bit — the operand's leading bit on a signed
    receiver, zero on an unsigned one. -/
def opBit (x y : BitValue) (i : Nat) : Bool :=
  if i < y.value.length then lsbGet y.value i
  else (if x.signed then y.value.headD false else false)

lemma lsbGet_normBV (x y : BitValue) {i : Nat} (hi : i < x.bits) :
    lsbGet (normBV x y).value i = opBit x y i := by
  rw [normBV, opBit]
  exact lsbGet_adapt x.bits x.signed y.value hi

/-! ### Shape of every result (C2) -/

/-- The invariant claimed of every produced value: the receiver's bit count,
    the receiver's signedness, and a stored string of exactly that length. -/
def shape (x r : BitValue) : Prop :=
  r.bits = x.bits ∧ r.signed = x.signed ∧ r.value.length = x.bits

/-- `shape` through a fallible call: whatever value comes back is shaped. -/
def resShape (x : BitValue) : PyRes BitValue → Prop
  | .ok r => shape x r
  | .err _ => True

lemma set_from_bin_length {bits : Nat} {signed : Bool} {s : List Char} {l : List Bool}
    (h : set_from_bin bits signed s = .ok l) : l.length = bits := by
  simp only [set_from_bin] at h
  split at h
  · split at h
    · exact absurd h (by simp)
    · injection h with h2
      rw [← h2]
      exact adapt_length _ _ _
  · exact absurd h (by simp)

lemma set_from_oct_length {bits : Nat} {signed : Bool} {s : List Char} {l : List Bool}
    (h : set_from_oct bits signed s = .ok l) : l.length = bits := by
  simp only [set_from_oct] at h
  split at h
  · split at h
    · exact absurd h (by simp)
    · injection h with h2
      rw [← h2]
      exact adapt_length _ _ _
  · exact absurd h (by simp)

lemma set_from_hex_length {bits : Nat} {signed : Bool} {s : List Char} {l : List Bool}
    (h : set_from_hex bits signed s = .ok l) : l.length = bits := by
  simp only [set_from_hex] at h
  split at h
  · split at h
    · exact absurd h (by simp)
    · injection h with h2
      rw [← h2]
      exact adapt_length _ _ _
  · exact absurd h (by simp)

lemma setterDispatch_shape {x : BitValue} {s : List Char} {r : BitValue}
    (h : setterDispatch x s = .ok r) : shape x r := by
  rw [setterDispatch] at h
  split at h
  · rcases hm : set_from_bin x.bits x.signed s with l | e
    · rw [hm] at h
      simp only [PyRes.map] at h
      injection h with h2
      rw [← h2]
      exact ⟨rfl, rfl, set_from_bin_length hm⟩
    · rw [hm] at h; exact absurd h (by simp [PyRes.map])
  · split at h
    · rcases hm : set_from_oct x.bits x.signed s with l | e
      · rw [hm] at h
        simp only [PyRes.map] at h
        injection h with h2
        rw [← h2]
        exact ⟨rfl, rfl, set_from_oct_length hm⟩
      · rw [hm] at h; exact absurd h (by simp [PyRes.map])
    · split at h
      · rcases hm : set_from_hex x.bits x.signed s with l | e
        · rw [hm] at h
          simp only [PyRes.map] at h
          injection h with h2
          rw [← h2]
          exact ⟨rfl, rfl, set_from_hex_length hm⟩
        · rw [hm] at h; exact absurd h (by simp [PyRes.map])
      · rcases hm : parseIntChars s with n | e
        · rw [hm] at h
          simp only [PyRes.map] at h
          injection h with h2
          rw [← h2]
          exact ⟨rfl, rfl, set_from_int_length _ _ _⟩
        · rw [hm] at h; exact absurd h (by simp [PyRes.map])

lemma valueSetter_shape {x : BitValue} {v : PyVal} {r : BitValue}
    (h : valueSetter x v = .ok r) : shape x r := by
  rcases v with n | s | y | b | _
  · exact setterDispatch_shape h
  · exact setterDispatch_shape h
  · exact setterDispatch_shape h
  · exact absurd h (by simp [valueSetter])
  · exact setterDispatch_shape h

lemma construct_shape {v : PyVal} {bits : Nat} {signed : Bool} {r : BitValue}
    (h : construct v bits signed = .ok r) :
    r.bits = bits ∧ r.signed = signed ∧ r.value.length = bits := by
  rw [construct] at h
  split at h
  · exact absurd h (by simp)
  · exact valueSetter_shape h

lemma normalize_value_shape {x : BitValue} {v : PyVal} {r : BitValue}
    (h : normalize_value x v = .ok r) : shape x r := by
  rw [normalize_value] at h
  exact construct_shape h

lemma bvAddB_shape (x y : BitValue) : shape x (bvAddB x y) :=
  ⟨rfl, rfl, add_bits_length _ _ _ _⟩

lemma bvInvert_shape (x : BitValue) : shape x (bvInvert x) :=
  ⟨rfl, rfl, adapt_length _ _ _⟩

lemma bvNeg_shape (x : BitValue) : shape x (bvNeg x) :=
  ⟨rfl, rfl, add_bits_length _ _ _ _⟩

lemma bvMulB_shape (x y : BitValue) : shape x (bvMulB x y) :=
  ⟨(mulLoop_bits _ _ _).1.trans rfl, (mulLoop_bits _ _ _).2.trans rfl, bvMulB_length x y⟩

lemma powLoop_shape : ∀ (bs : List Bool) (base res : BitValue),
    res.value.length = res.bits →
    (powLoop bs base res).bits = res.bits ∧ (powLoop bs base res).signed = res.signed ∧
      (powLoop bs base res).value.length = res.bits := by
  intro bs
  induction bs with
  | nil => intro base res h; exact ⟨rfl, rfl, h⟩
  | cons b rest ih =>
    intro base res h
    cases b with
    | false =>
      have := ih (bvMulB base base) res h
      simpa [powLoop] using this
    | true =>
      have hm := bvMulB_shape res base
      have := ih (bvMulB base base) (bvMulB res base) (by rw [hm.2.2, hm.1])
      simp only [powLoop, if_pos] at *
      exact ⟨this.1.trans hm.1, this.2.1.trans hm.2.1, by rw [this.2.2, hm.1]⟩

lemma bvPowB_shape (x y : BitValue) : shape x (bvPowB x y) := by
  have h := powLoop_shape (normBV x y).value.reverse (normBV x x) (oneNorm x)
    (set_from_int_length x.bits x.signed 1)
  exact ⟨h.1, h.2.1, h.2.2⟩

lemma bvAndB_shape (x y : BitValue) : shape x (bvAndB x y) :=
  ⟨rfl, rfl, adapt_length _ _ _⟩

lemma bvOrB_shape (x y : BitValue) : shape x (bvOrB x y) :=
  ⟨rfl, rfl, adapt_length _ _ _⟩

lemma bvXorB_shape (x y : BitValue) : shape x (bvXorB x y) :=
  ⟨rfl, rfl, adapt_length _ _ _⟩

lemma map_resShape {x : BitValue} {v : PyVal} {f : BitValue → BitValue}
    (hf : ∀ o, shape x (f o)) : resShape x ((normalize_value x v).map f) := by
  rcases hm : normalize_value x v with o | e
  · exact hf o
  · exact trivial

lemma bvAdd_shape (x : BitValue) (v : PyVal) : resShape x (bvAdd x v) :=
  map_resShape (fun o => ⟨rfl, rfl, add_bits_length _ _ _ _⟩)

lemma bvSub_shape (x : BitValue) (v : PyVal) : resShape x (bvSub x v) :=
  map_resShape (fun o => bvAddB_shape x _)

lemma bvMul_shape (x : BitValue) (v : PyVal) : resShape x (bvMul x v) :=
  map_resShape (fun o => bvMulB_shape x o)

lemma bvPow_shape (x : BitValue) (v : PyVal) : resShape x (bvPow x v) :=
  map_resShape (fun o => bvPowB_shape x o)

lemma bvAnd_shape (x : BitValue) (v : PyVal) : resShape x (bvAnd x v) :=
  map_resShape (fun o => bvAndB_shape x o)

lemma bvOr_shape (x : BitValue) (v : PyVal) : resShape x (bvOr x v) :=
  map_resShape (fun o => bvOrB_shape x o)

lemma bvXor_shape (x : BitValue) (v : PyVal) : resShape x (bvXor x v) :=
  map_resShape (fun o => bvXorB_shape x o)

lemma bvLshift_shape (x : BitValue) (n : Nat) : resShape x (bvLshift x n) := by
  show resShape x ((set_from_bin x.bits x.signed
      ('0' :: 'b' :: (x.value.map bitChar ++ List.replicate n '0'))).map
    (fun l => { x with value := l }))
  rcases hm : set_from_bin x.bits x.signed
      ('0' :: 'b' :: (x.value.map bitChar ++ List.replicate n '0')) with l | e
  · exact ⟨rfl, rfl, set_from_bin_length hm⟩
  · exact trivial

lemma bvRshift_shape (x : BitValue) (n : Nat) : resShape x (bvRshift x n) := by
  show resShape x ((set_from_bin x.bits x.signed
      ('0' :: 'b' :: (List.replicate n '0' ++
        (if n = 0 then [] else x.value.take (x.value.length - n)).map bitChar))).map
    (fun l => { x with value := l }))
  rcases hm : set_from_bin x.bits x.signed
      ('0' :: 'b' :: (List.replicate n '0' ++
        (if n = 0 then [] else x.value.take (x.value.length - n)).map bitChar)) with l | e
  · exact ⟨rfl, rfl, set_from_bin_length hm⟩
  · exact trivial

lemma inPlace_shape {x : BitValue} (hx : WF x) (r : PyRes BitValue) :
    shape x (inPlace x r).1 := by
  rcases r with a | e
  · simp only [inPlace]
    rcases hm : valueSetter x (.pbv a) with x2 | e2
    · exact valueSetter_shape hm
    · exact ⟨rfl, rfl, hx.2⟩
  · exact ⟨rfl, rfl, hx.2⟩

lemma bvSetValue_shape {x : BitValue} (hx : WF x) (v : PyVal) :
    shape x (bvSetValue x v).1 := by
  rcases hm : valueSetter x v with x2 | e
  · have he : bvSetValue x v = (x2, none) := by rw [bvSetValue, hm]
    rw [he]
    exact valueSetter_shape hm
  · have he : bvSetValue x v = (x, some e) := by rw [bvSetValue, hm]
    rw [he]
    exact ⟨rfl, rfl, hx.2⟩

lemma floor_division_shape {x other : BitValue} (hx : WF x) {fuel : Nat}
    {q r : BitValue} (h : floor_division fuel x other = .ok (some (q, r))) :
    shape x q ∧ shape x r := by
  have hb : 1 ≤ x.bits := hx.1
  rw [floor_division] at h
  split at h
  · exact absurd h (by simp)
  · injection h with h2
    have ho : (normBV x other).value.length = (normBV x other).bits :=
      normBV_length x other
    have hz : (zeroNorm x).value.length = x.bits := zeroNorm_length x
    have hr0 : (normBV x x).value.length = x.bits := normBV_length x x
    have hall := divLoop_ok ho hb fuel (zeroNorm x) (normBV x x) q r
      rfl rfl rfl rfl hz hr0 h2
    exact ⟨⟨hall.1, hall.2.1, hall.2.2.1⟩,
      ⟨hall.2.2.2.1, hall.2.2.2.2.1, hall.2.2.2.2.2.1⟩⟩

/-! ### Comparator symmetry on same-width, same-signedness pairs (C5) -/

lemma normBV_eq_self {x y : BitValue} (hbits : y.bits = x.bits)
    (hsign : y.signed = x.signed) (hyl : y.value.length = y.bits) :
    normBV x y = y := by
  rw [normBV_of_len (by rw [hyl, hbits])]
  cases y with
  | mk b s v =>
    simp only at hbits hsign
    rw [hbits, hsign]

lemma head_lt_sKey {x y : BitValue} (hxl : x.value.length = x.bits)
    (hyl : y.value.length = y.bits) (hbits : y.bits = x.bits)
    (hsx : x.signed = true) (hsy : y.signed = true) (hb : 1 ≤ x.bits)
    (hhx : x.value.headD false = false) (hhy : y.value.headD false = true) :
    sKey y < sKey x := by
  have hxe : x.value ≠ [] := by
    intro h
    rw [h] at hxl
    simp at hxl
    omega
  have hye : y.value ≠ [] := by
    intro h
    rw [h] at hyl
    simp at hyl
    omega
  have hux := bitsToNat_lt x.value
  have huy := bitsToNat_lt y.value
  rw [hxl] at hux
  rw [hyl, hbits] at huy
  have h1 : ¬ 2 ^ (x.value.length - 1) ≤ bitsToNat x.value := by
    rw [← head_true_iff_ge hxe, hhx]
    exact Bool.false_ne_true
  have h2 : 2 ^ (y.value.length - 1) ≤ bitsToNat y.value := by
    rw [← head_true_iff_ge hye]
    exact hhy
  rw [hxl] at h1
  rw [hyl, hbits] at h2
  have hsplit := two_pow_split hb
  rw [sKey, sKey, hsx, hsy, if_pos rfl, if_pos rfl, hbits, hsplit,
    biased_of_ge (by omega) (by omega), biased_of_lt (by omega)]
  omega

/-! ### The in-place calls preserve the receiver on failure (C9) -/

lemma inPlace_err {x : BitValue} {r : PyRes BitValue} {e : Err}
    (h : (inPlace x r).2 = some e) : (inPlace x r).1 = x := by
  rcases r with a | e2
  · simp only [inPlace] at h ⊢
    rcases hm : valueSetter x (.pbv a) with x2 | e3
    · rw [hm] at h
      exact absurd h (by simp)
    · rfl
  · rfl

lemma bvSetValue_err {x : BitValue} {v : PyVal} {e : Err}
    (h : (bvSetValue x v).2 = some e) : (bvSetValue x v).1 = x := by
  rcases hm : valueSetter x v with x2 | e2
  · have he : bvSetValue x v = (x2, none) := by rw [bvSetValue, hm]
    rw [he] at h
    exact absurd h (by simp)
  · have he : bvSetValue x v = (x, some e2) := by rw [bvSetValue, hm]
    rw [he]

lemma bvIFloorDiv_err {fuel : Nat} {x other x2 : BitValue} {e : Err}
    (h : bvIFloorDiv fuel x other = some (x2, some e)) : x2 = x := by
  rw [bvIFloorDiv] at h
  rcases hm : floor_division fuel x other with a | e2
  · rw [hm] at h
    rcases a with _ | qr
    · exact absurd h (by simp)
    · simp only at h
      injection h with h2
      have h3 : (inPlace x (.ok qr.1)).2 = some e := by rw [h2]
      have h4 := inPlace_err h3
      rw [h2] at h4
      exact h4
  · rw [hm] at h
    simp only at h
    injection h with h2
    injection h2 with h3 h4
    exact h3.symm

lemma bvIMod_err {fuel : Nat} {x other x2 : BitValue} {e : Err}
    (h : bvIMod fuel x other = some (x2, some e)) : x2 = x := by
  rw [bvIMod] at h
  rcases hm : floor_division fuel x other with a | e2
  · rw [hm] at h
    rcases a with _ | qr
    · exact absurd h (by simp)
    · simp only at h
      injection h with h2
      have h3 : (inPlace x (.ok qr.2)).2 = some e := by rw [h2]
      have h4 := inPlace_err h3
      rw [h2] at h4
      exact h4
  · rw [hm] at h
    simp only at h
    injection h with h2
    injection h2 with h3 h4
    exact h3.symm

/-! ### The right shift for positive amounts (C6) -/

lemma bvRshift_pos {x : BitValue} (hx : WF x) {n : Nat} (hn : 1 ≤ n) :
    bvRshift x n = .ok { x with value := List.replicate (min n x.bits) false ++ x.value.take (x.bits - n) } := by
  show (set_from_bin x.bits x.signed
      ('0' :: 'b' :: (List.replicate n '0' ++
        (if n = 0 then [] else x.value.take (x.value.length - n)).map bitChar))).map
    (fun (l : List Bool) => ({ x with value := l } : BitValue)) =
    .ok ({ x with value := List.replicate (min n x.bits) false ++ x.value.take (x.bits - n) } : BitValue)
  rw [if_neg (by omega), hx.2]
  have hchars : List.replicate n '0' ++ (x.value.take (x.bits - n)).map bitChar =
      (List.replicate n false ++ x.value.take (x.bits - n)).map bitChar := by
    rw [List.map_append, List.map_replicate]
    rfl
  have hne : List.replicate n false ++ x.value.take (x.bits - n) ≠ [] := by
    intro h
    have := congrArg List.length h
    simp only [List.length_append, List.length_replicate, List.length_nil] at this
    omega
  rw [hchars, set_from_bin_round x.bits x.signed hne]
  have hval : adapt_bit_count x.bits x.signed
      (List.replicate n false ++ x.value.take (x.bits - n)) =
      List.replicate (min n x.bits) false ++ x.value.take (x.bits - n) := by
    have htake : (x.value.take (x.bits - n)).length = x.bits - n := by
      rw [List.length_take, hx.2]
      omega
    rcases le_or_lt n x.bits with hle | hgt
    · have hmin : min n x.bits = n := Nat.min_eq_left hle
      rw [hmin]
      apply adapt_self
      rw [List.length_append, List.length_replicate, htake]
      omega
    · have hmin : min n x.bits = x.bits := Nat.min_eq_right (le_of_lt hgt)
      have htake0 : x.bits - n = 0 := by omega
      rw [hmin, htake0, List.take_zero, List.append_nil, List.append_nil]
      rw [adapt_of_ge x.signed (by rw [List.length_replicate]; omega)]
      rw [List.length_replicate, List.drop_replicate]
      congr 1
      omega
  rw [hval]
  rfl

/-! ### Statements of the checked properties -/

/-- C1's round trips as the code makes them: the binary and decimal texts
    re-construct every well-formed value; the octal and hexadecimal texts do
    so on unsigned receivers. -/
def roundTrips (x : BitValue) : Prop :=
  construct (.pstr (bvBin x)) x.bits x.signed = .ok x ∧
  construct (.pstr (bvDec x)) x.bits x.signed = .ok x ∧
  (x.signed = false →
    construct (.pstr (bvOct x)) x.bits x.signed = .ok x ∧
    construct (.pstr (bvHex x)) x.bits x.signed = .ok x)

/-- C2's invariant, one conjunct per operation: the result carries the
    receiver's bit count and signedness and stores exactly that many digits. -/
def widthInvariant (x : BitValue) (v : PyVal) (n fuel : Nat) (other : BitValue)
    (bits : Nat) (signed : Bool) : Prop :=
  (∀ r, construct v bits signed = .ok r →
    r.bits = bits ∧ r.signed = signed ∧ r.value.length = bits) ∧
  resShape x (bvAdd x v) ∧ resShape x (bvSub x v) ∧ resShape x (bvMul x v) ∧
  resShape x (bvPow x v) ∧ resShape x (bvAnd x v) ∧ resShape x (bvOr x v) ∧
  resShape x (bvXor x v) ∧ shape x (bvInvert x) ∧ shape x (bvNeg x) ∧
  resShape x (bvLshift x n) ∧ resShape x (bvRshift x n) ∧
  (∀ q r, floor_division fuel x other = .ok (some (q, r)) → shape x q ∧ shape x r) ∧
  shape x (bvIAdd x v).1 ∧ shape x (bvISub x v).1 ∧ shape x (bvIMul x v).1 ∧
  shape x (bvIPow x v).1 ∧ shape x (bvIAnd x v).1 ∧ shape x (bvIOr x v).1 ∧
  shape x (bvIXor x v).1 ∧ shape x (bvILshift x n).1 ∧ shape x (bvIRshift x n).1 ∧
  shape x (bvSetValue x v).1 ∧
  (∀ p, bvIFloorDiv fuel x other = some p → shape x p.1) ∧
  (∀ p, bvIMod fuel x other = some p → shape x p.1)

/-- C3's division contract against the normalized divisor: the zero test, the
    reconstruction `q * o + r = x` through the engine's own add and mul, and
    the comparator bound on the remainder. -/
def divisionContract (x other : BitValue) (fuel : Nat) : Prop :=
  (floor_division fuel x other = .err .zeroDivisionError ↔ toInt (normBV x other) = 0) ∧
  (∀ q r, floor_division fuel x other = .ok (some (q, r)) →
    compare_to r (normBV x other) = .less ∧
    bitsToNat (bvAddB (bvMulB q (normBV x other)) r).value = bitsToNat x.value)

/-- C5's comparator laws on a same-width, same-signedness pair. -/
def comparatorLaws (x y : BitValue) : Prop :=
  (compare_to x y = .less ∨ compare_to x y = .equal ∨ compare_to x y = .greater) ∧
  ((compare_to x y = .less → compare_to x y ≠ .equal ∧ compare_to x y ≠ .greater) ∧
    (compare_to x y = .equal → compare_to x y ≠ .greater)) ∧
  (compare_to x y = .less ↔ compare_to y x = .greater) ∧
  (compare_to x y = .equal ↔ compare_to y x = .equal) ∧
  (compare_to x y = .greater ↔ compare_to y x = .less) ∧
  (x.signed = true → x.value.headD false = false → y.value.headD false = true →
    compare_to x y = .greater) ∧
  (x.signed = true → x.value.headD false = true → y.value.headD false = false →
    compare_to x y = .less)

/-- C7's normalization of the second operand of and/or/xor, read positionally:
    at every right-to-left position below the receiver's width the result bit
    is the truth table applied to the receiver's bit and `opBit` — the
    operand's own bit where one exists, its leading bit on a signed receiver
    and zero on an unsigned one where the operand was too short. -/
def bitwiseNormalized (x y : BitValue) (i : Nat) : Prop :=
  ((bvAnd x (.pbv y)).map (fun r => (r.bits, r.signed, lsbGet r.value i)) =
    .ok (x.bits, x.signed, andTable (lsbGet x.value i) (opBit x y i))) ∧
  ((bvOr x (.pbv y)).map (fun r => (r.bits, r.signed, lsbGet r.value i)) =
    .ok (x.bits, x.signed, orTable (lsbGet x.value i) (opBit x y i))) ∧
  ((bvXor x (.pbv y)).map (fun r => (r.bits, r.signed, lsbGet r.value i)) =
    .ok (x.bits, x.signed, xorTable (lsbGet x.value i) (opBit x y i)))

/-- C9's atomicity: every failing call hands back the receiver exactly as it
    was (the exception is raised before any assignment to the stored value). -/
def errorAtomic (x : BitValue) (v : PyVal) (n fuel : Nat) (other : BitValue) : Prop :=
  (∀ e, (bvIAdd x v).2 = some e → (bvIAdd x v).1 = x) ∧
  (∀ e, (bvISub x v).2 = some e → (bvISub x v).1 = x) ∧
  (∀ e, (bvIMul x v).2 = some e → (bvIMul x v).1 = x) ∧
  (∀ e, (bvIPow x v).2 = some e → (bvIPow x v).1 = x) ∧
  (∀ e, (bvIAnd x v).2 = some e → (bvIAnd x v).1 = x) ∧
  (∀ e, (bvIOr x v).2 = some e → (bvIOr x v).1 = x) ∧
  (∀ e, (bvIXor x v).2 = some e → (bvIXor x v).1 = x) ∧
  (∀ e, (bvILshift x n).2 = some e → (bvILshift x n).1 = x) ∧
  (∀ e, (bvIRshift x n).2 = some e → (bvIRshift x n).1 = x) ∧
  (∀ e, (bvSetValue x v).2 = some e → (bvSetValue x v).1 = x) ∧
  (∀ x2 e, bvIFloorDiv fuel x other = some (x2, some e) → x2 = x) ∧
  (∀ x2 e, bvIMod fuel x other = some (x2, some e) → x2 = x)

/-! ### The claims -/

/-- C1: the spec claims `convert(format(x)) == x` for every base.  That holds
    for `bin()` and `dec()` on every well-formed value, and for `oct()` and
    `hex()` only on unsigned receivers: on a signed receiver the octal and
    hexadecimal digit counts come from the zero-stripped string, and
    re-parsing sign-extends the shorter expansion, which can flip the stored
    pattern (`c1_formatter_roundtrip_counterexample`).  This theorem is the
    amended round trip. -/
theorem c1_formatter_roundtrip (x : BitValue) (hx : WF x) : roundTrips x :=
  ⟨construct_bin hx.2 hx.1, construct_dec hx.2 hx.1,
    fun hs => ⟨construct_oct_unsigned hx.2 hx.1 hs, construct_hex_unsigned hx.2 hx.1 hs⟩⟩

theorem c1_formatter_roundtrip_witness :
    WF { bits := 3, signed := false, value := [true, false, true] } ∧
      roundTrips { bits := 3, signed := false, value := [true, false, true] } :=
  ⟨by decide, c1_formatter_roundtrip _ (by decide)⟩

/-- C1 fails as stated on signed receivers: the signed 4-bit pattern 0111
    renders as "0o7", and re-constructing a signed 4-bit value from "0o7"
    sign-extends the three expanded digits to 1111. -/
theorem c1_formatter_roundtrip_counterexample :
    bvOct { bits := 4, signed := true, value := [false, true, true, true] } =
      ['0', 'o', '7'] ∧
    construct (.pstr ['0', 'o', '7']) 4 true =
      .ok { bits := 4, signed := true, value := [true, true, true, true] } ∧
    ({ bits := 4, signed := true, value := [true, true, true, true] } : BitValue) ≠
      { bits := 4, signed := true, value := [false, true, true, true] } := by
  refine ⟨?_, ?_, ?_⟩ <;> decide

/-- C2: every operation yields the receiver's width and signedness and stores
    exactly `bits` digits; construction itself yields the requested width and
    signedness.  Width and signedness are only ever copied from the receiver,
    never written, so they cannot change after construction. -/
theorem c2_width_invariant (x : BitValue) (v : PyVal) (n fuel : Nat)
    (other : BitValue) (bits : Nat) (signed : Bool) (hx : WF x) :
    widthInvariant x v n fuel other bits signed := by
  refine ⟨fun r h => construct_shape h, bvAdd_shape x v, bvSub_shape x v,
    bvMul_shape x v, bvPow_shape x v, bvAnd_shape x v, bvOr_shape x v,
    bvXor_shape x v, bvInvert_shape x, bvNeg_shape x, bvLshift_shape x n,
    bvRshift_shape x n, fun q r h => floor_division_shape hx h,
    inPlace_shape hx _, inPlace_shape hx _, inPlace_shape hx _,
    inPlace_shape hx _, inPlace_shape hx _, inPlace_shape hx _,
    inPlace_shape hx _, inPlace_shape hx _, inPlace_shape hx _,
    bvSetValue_shape hx v, ?_, ?_⟩
  · intro p hp
    rw [bvIFloorDiv] at hp
    rcases hm : floor_division fuel x other with a | e
    · rw [hm] at hp
      rcases a with _ | qr
      · exact absurd hp (by simp)
      · simp only at hp
        injection hp with h2
        rw [← h2]
        exact inPlace_shape hx _
    · rw [hm] at hp
      simp only at hp
      injection hp with h2
      rw [← h2]
      exact ⟨rfl, rfl, hx.2⟩
  · intro p hp
    rw [bvIMod] at hp
    rcases hm : floor_division fuel x other with a | e
    · rw [hm] at hp
      rcases a with _ | qr
      · exact absurd hp (by simp)
      · simp only at hp
        injection hp with h2
        rw [← h2]
        exact inPlace_shape hx _
    · rw [hm] at hp
      simp only at hp
      injection hp with h2
      rw [← h2]
      exact ⟨rfl, rfl, hx.2⟩

theorem c2_width_invariant_witness :
    WF { bits := 2, signed := false, value := [true, false] } ∧
      widthInvariant { bits := 2, signed := false, value := [true, false] }
        (.pint 3) 1 2 { bits := 2, signed := false, value := [false, true] } 3 true :=
  ⟨by decide, c2_width_invariant _ (.pint 3) 1 2 _ 3 true (by decide)⟩

/-- C3: the code raises `ZeroDivisionError` exactly when the divisor's value
    AFTER normalization to the receiver's width is zero — a nonzero divisor
    whose low receiver-width bits are all zero also raises
    (`c3_division_contract_counterexample`), so "the divisor's integer value
    is 0" is amended to the normalized divisor.  Whenever the loop finishes,
    `add(mul(q, o), r) = a` under the width's wraparound and the remainder
    compares less than the normalized divisor. -/
theorem c3_division_contract (x other : BitValue) (hx : WF x) (fuel : Nat) :
    divisionContract x other fuel := by
  constructor
  · constructor
    · intro h
      by_cases hc : toInt (normBV x other) = 0
      · exact hc
      · have he : floor_division fuel x other =
            .ok (divLoop (normBV x other) fuel (zeroNorm x) (normBV x x)) := by
          show (if toInt (normBV x other) = 0 then PyRes.err Err.zeroDivisionError
            else PyRes.ok (divLoop (normBV x other) fuel (zeroNorm x) (normBV x x))) = _
          rw [if_neg hc]
        rw [he] at h
        exact absurd h (by simp)
    · intro h
      show (if toInt (normBV x other) = 0 then PyRes.err Err.zeroDivisionError
        else PyRes.ok (divLoop (normBV x other) fuel (zeroNorm x) (normBV x x))) =
          .err .zeroDivisionError
      rw [if_pos h]
  · intro q r h
    have hb : 1 ≤ x.bits := hx.1
    rw [floor_division] at h
    split at h
    · exact absurd h (by simp)
    · injection h with h2
      set o := normBV x other with ho
      have hol : o.value.length = o.bits := normBV_length x other
      have hz : (zeroNorm x).value.length = x.bits := zeroNorm_length x
      have hr0 : (normBV x x).value.length = x.bits := normBV_length x x
      have hall := divLoop_ok hol hb fuel (zeroNorm x) (normBV x x) q r
        rfl rfl rfl rfl hz hr0 h2
      refine ⟨hall.2.2.2.2.2.2.1, ?_⟩
      have hqb : q.bits = x.bits := hall.1
      have hql : q.value.length = x.bits := hall.2.2.1
      have hrl : r.value.length = x.bits := hall.2.2.2.2.2.1
      have hinv := hall.2.2.2.2.2.2.2
      have hz0 : bitsToNat (zeroNorm x).value = 0 := zeroNorm_toNat x
      have hxx : normBV x x = x := normBV_self hx.2
      have hob : o.bits = x.bits := rfl
      rw [hz0, hxx, Nat.zero_mul, Nat.zero_add, hob] at hinv
      have hux : bitsToNat x.value < 2 ^ x.bits := by
        have := bitsToNat_lt x.value
        rwa [hx.2] at this
      rw [Nat.mod_eq_of_lt hux] at hinv
      have hmul : bitsToNat (bvMulB q o).value =
          (bitsToNat q.value * bitsToNat o.value) % 2 ^ x.bits := by
        have h1 := bvMulB_toNat o (by rw [hql, hqb])
        rw [hqb] at h1
        rw [h1, normBV_of_len (by rw [hol, hob]; exact hqb.symm)]
      have hadd : bitsToNat (bvAddB (bvMulB q o) r).value =
          (bitsToNat (bvMulB q o).value + bitsToNat r.value) % 2 ^ x.bits := by
        have hml : (bvMulB q o).value.length = (bvMulB q o).bits := by
          rw [(bvMulB_shape q o).1]
          exact bvMulB_length q o
        have h1 := bvAddB_toNat r hml
        have hmb : (bvMulB q o).bits = x.bits := by
          rw [(bvMulB_shape q o).1, hqb]
        rw [hmb] at h1
        rw [h1, normBV_of_len (by rw [hrl, hmb])]
      rw [hadd, hmul, Nat.mod_add_mod, hinv]

theorem c3_division_contract_witness :
    WF { bits := 4, signed := false, value := [false, true, true, true] } ∧
      divisionContract { bits := 4, signed := false, value := [false, true, true, true] }
        { bits := 4, signed := false, value := [false, true, false, true] } 3 :=
  ⟨by decide, c3_division_contract _ _ (by decide) 3⟩

/-- C3 fails as stated for a 2-bit receiver divided by the 4-bit value 4: the
    divisor's integer value is not 0, yet its two low bits are, and the call
    raises `ZeroDivisionError`. -/
theorem c3_division_contract_counterexample :
    floor_division 0 { bits := 2, signed := false, value := [false, true] }
      { bits := 4, signed := false, value := [false, true, false, false] } =
      .err .zeroDivisionError ∧
    toInt { bits := 4, signed := false, value := [false, true, false, false] } ≠ 0 := by
  constructor <;> decide

/-- C4: division does NOT terminate on every nonzero divisor — the signed
    minimum pattern 10...0 subtracts to itself, so the loop oscillates
    forever (`c4_division_terminates_counterexample`).  Amended: the loop
    finishes for some fuel whenever the normalized divisor is nonzero and,
    on a signed receiver, is not the minimum two's-complement pattern. -/
theorem c4_division_terminates (x other : BitValue) (hx : WF x)
    (hnz : toInt (normBV x other) ≠ 0)
    (hmin : ¬(x.signed = true ∧
      (normBV x other).value = true :: List.replicate (x.bits - 1) false)) :
    ∃ fuel q r, floor_division fuel x other = .ok (some (q, r)) :=
  floor_division_terminates hx.2 hx.1 hnz hmin

theorem c4_division_terminates_witness :
    (WF { bits := 4, signed := true, value := [false, true, true, true] } ∧
      toInt (normBV { bits := 4, signed := true, value := [false, true, true, true] }
        { bits := 4, signed := true, value := [true, true, true, true] }) ≠ 0) ∧
    ∃ fuel q r, floor_division fuel
      { bits := 4, signed := true, value := [false, true, true, true] }
      { bits := 4, signed := true, value := [true, true, true, true] } =
        .ok (some (q, r)) :=
  ⟨⟨by decide, by decide⟩,
    c4_division_terminates _ _ (by decide) (by decide) (by decide)⟩

/-- C4 fails as stated: dividing the signed 4-bit zero by the signed 4-bit
    minimum 1000 (value −8, not 0) never finishes, whatever the iteration
    budget. -/
theorem c4_division_terminates_counterexample :
    divDiverges { bits := 4, signed := true, value := [false, false, false, false] }
      { bits := 4, signed := true, value := [true, false, false, false] } ∧
    toInt (normBV { bits := 4, signed := true, value := [false, false, false, false] }
      { bits := 4, signed := true, value := [true, false, false, false] }) ≠ 0 :=
  ⟨divMin_diverges, by decide⟩

/-- C5: the comparator's laws hold for same-width, same-signedness pairs —
    exactly one answer, `compare_to` and its swap are inverses, and on signed
    operands differing sign bits decide with sign bit 0 greater.  As stated
    over "any pair" the claim fails: mixed widths normalize the other operand
    to the receiver's width, so the two directions see different values
    (`c5_comparator_laws_counterexample`). -/
theorem c5_comparator_laws (x y : BitValue) (hx : WF x) (hy : WF y)
    (hbits : x.bits = y.bits) (hsign : x.signed = y.signed) :
    comparatorLaws x y := by
  have hchar_xy := compare_to_char y hx.2 hx.1
  have hchar_yx := compare_to_char x hy.2 hy.1
  have hnxy : normBV x y = y := normBV_eq_self hbits.symm hsign.symm hy.2
  have hnyx : normBV y x = x := normBV_eq_self hbits hsign hx.2
  rw [hnxy] at hchar_xy
  rw [hnyx] at hchar_yx
  refine ⟨?_, ⟨?_, ?_⟩, ?_, ?_, ?_, ?_, ?_⟩
  · rcases hc : compare_to x y with _ | _ | _
    · exact Or.inl rfl
    · exact Or.inr (Or.inl rfl)
    · exact Or.inr (Or.inr rfl)
  · intro h
    rw [h]
    exact ⟨by decide, by decide⟩
  · intro h
    rw [h]
    decide
  · rw [hchar_xy.1, hchar_yx.2.2]
  · rw [hchar_xy.2.1, hchar_yx.2.1]
    exact eq_comm
  · rw [hchar_xy.2.2, hchar_yx.1]
  · intro hsx hhx hhy
    rw [hchar_xy.2.2]
    exact head_lt_sKey hx.2 hy.2 hbits.symm hsx (by rw [← hsign]; exact hsx)
      hx.1 hhx hhy
  · intro hsx hhx hhy
    rw [hchar_xy.1]
    exact head_lt_sKey hy.2 hx.2 hbits (by rw [← hsign]; exact hsx) hsx
      (by rw [← hbits]; exact hx.1) hhy hhx

theorem c5_comparator_laws_witness :
    (WF { bits := 3, signed := true, value := [true, false, true] } ∧
      WF { bits := 3, signed := true, value := [false, true, false] }) ∧
    comparatorLaws { bits := 3, signed := true, value := [true, false, true] }
      { bits := 3, signed := true, value := [false, true, false] } :=
  ⟨⟨by decide, by decide⟩,
    c5_comparator_laws _ _ (by decide) (by decide) rfl rfl⟩

/-- C5 fails over arbitrary pairs: a 2-bit 01 compares equal to a 4-bit 0101
    (the operand truncates to 01), while the swapped comparison pads 01 to
    0001 and answers greater — the two directions are not inverses. -/
theorem c5_comparator_laws_counterexample :
    compare_to { bits := 2, signed := false, value := [false, true] }
      { bits := 4, signed := false, value := [false, true, false, true] } = .equal ∧
    compare_to { bits := 4, signed := false, value := [false, true, false, true] }
      { bits := 2, signed := false, value := [false, true] } = .greater := by
  constructor <;> decide

/-- C6: `x >> 0` does not return `x` — Python's `value[:-0]` is the empty
    string, so the rebuilt literal is just "0b" and the call raises
    `ValueError`.  For every positive amount the claimed logical shift does
    hold: `min n width` zeros enter at the MSB end and the kept top bits
    follow, regardless of the sign bit. -/
theorem c6_rshift_zero_raises (x : BitValue) (hx : WF x) (n : Nat) (hn : 1 ≤ n) :
    bvRshift x 0 = .err .valueError ∧
    bvRshift x n = .ok { bits := x.bits, signed := x.signed, value := List.replicate (min n x.bits) false ++ x.value.take (x.bits - n) } :=
  ⟨rfl, bvRshift_pos hx hn⟩

theorem c6_rshift_zero_raises_witness :
    bvRshift { bits := 4, signed := false, value := [true, false, true, false] } 0 =
      .err .valueError ∧
    bvRshift { bits := 4, signed := false, value := [true, false, true, false] } 1 =
      .ok { bits := 4, signed := false, value := List.replicate (min 1 4) false ++ [true, false, true, false].take (4 - 1) } :=
  c6_rshift_zero_raises _ (by decide) 1 (by decide)

/-- C7: and/or/xor do NOT normalize to the longer width — the second operand
    is normalized to the RECEIVER's width (truncating a longer operand), and
    a shorter operand is padded with its own leading bit only when the
    receiver is signed, with zero otherwise
    (`c7_bitwise_normalization_counterexample`).  This theorem is the
    amended position-by-position description. -/
theorem c7_bitwise_normalization (x y : BitValue) (hx : WF x)
    (hy : y.value ≠ []) (i : Nat) (hi : i < x.bits) : bitwiseNormalized x y i := by
  have hnv := normalize_value_pbv x y hx.1 hy
  have hinner : (normBV x (normBV x y)).value = (normBV x y).value := by
    rw [normBV_of_len (normBV_length x y)]
  have hilen : i < x.value.length := by rw [hx.2]; exact hi
  have hlen : x.value.length = (normBV x y).value.length := by
    rw [hx.2, normBV_length]
  refine ⟨?_, ?_, ?_⟩
  · rw [bvAnd, hnv]
    show PyRes.ok (_, _, lsbGet (bvAndB x (normBV x y)).value i) = _
    have hv : (bvAndB x (normBV x y)).value =
        List.zipWith andTable x.value (normBV x y).value := by
      show adapt_bit_count x.bits x.signed
        ((x.value.zip (normBV x (normBV x y)).value).map (fun p => andTable p.1 p.2)) = _
      rw [hinner, zip_map_eq_zipWith]
      apply adapt_self
      rw [List.length_zipWith, hx.2, normBV_length, Nat.min_self]
    rw [hv, lsbGet_zipWith andTable hlen hilen, lsbGet_normBV x y hi]
    rfl
  · rw [bvOr, hnv]
    show PyRes.ok (_, _, lsbGet (bvOrB x (normBV x y)).value i) = _
    have hv : (bvOrB x (normBV x y)).value =
        List.zipWith orTable x.value (normBV x y).value := by
      show adapt_bit_count x.bits x.signed
        ((x.value.zip (normBV x (normBV x y)).value).map (fun p => orTable p.1 p.2)) = _
      rw [hinner, zip_map_eq_zipWith]
      apply adapt_self
      rw [List.length_zipWith, hx.2, normBV_length, Nat.min_self]
    rw [hv, lsbGet_zipWith orTable hlen hilen, lsbGet_normBV x y hi]
    rfl
  · rw [bvXor, hnv]
    show PyRes.ok (_, _, lsbGet (bvXorB x (normBV x y)).value i) = _
    have hv : (bvXorB x (normBV x y)).value =
        List.zipWith xorTable x.value (normBV x y).value := by
      show adapt_bit_count x.bits x.signed
        ((x.value.zip (normBV x (normBV x y)).value).map (fun p => xorTable p.1 p.2)) = _
      rw [hinner, zip_map_eq_zipWith]
      apply adapt_self
      rw [List.length_zipWith, hx.2, normBV_length, Nat.min_self]
    rw [hv, lsbGet_zipWith xorTable hlen hilen, lsbGet_normBV x y hi]
    rfl

theorem c7_bitwise_normalization_witness :
    (WF { bits := 4, signed := true, value := [true, false, false, true] } ∧
      ({ bits := 2, signed := false, value := [true, false] } : BitValue).value ≠ [] ∧
      3 < 4) ∧
    bitwiseNormalized { bits := 4, signed := true, value := [true, false, false, true] }
      { bits := 2, signed := false, value := [true, false] } 3 :=
  ⟨⟨by decide, by decide, by decide⟩,
    c7_bitwise_normalization _ _ (by decide) (by decide) 3 (by decide)⟩

/-- C7 fails as stated: a 2-bit receiver and a 4-bit operand produce a 2-bit
    result, not one of the longer width 4; and an unsigned 4-bit receiver
    pads a 1-bit operand 1 with zeros, not with the operand's leading 1. -/
theorem c7_bitwise_normalization_counterexample :
    ((bvAnd { bits := 2, signed := false, value := [true, true] }
      (.pbv { bits := 4, signed := false, value := [true, false, false, true] })).map
        (fun r => r.bits) = .ok 2 ∧ (2 : Nat) ≠ max 2 4) ∧
    (bvAnd { bits := 4, signed := false, value := [true, true, true, true] }
      (.pbv { bits := 1, signed := false, value := [true] }) =
      .ok { bits := 4, signed := false, value := [false, false, false, true] } ∧
      [false, false, false, true] ≠ List.replicate 4 true) := by
  refine ⟨⟨?_, ?_⟩, ?_, ?_⟩ <;> decide

/-- C8: `oct()` and `hex()` do group the stored bits LSB-first into 3- and
    4-bit chunks, pad the topmost chunk with zero bits, use the fixed digit
    tables and upper-case hex — but the number of rendered digits comes from
    the string with its leading zero bits STRIPPED, not from the full width:
    a width-4 vector can render a single octal digit where ceil(4/3) = 2
    were claimed (`c8_grouped_rendering_counterexample`).  This theorem is
    the amended equivalence, with `octSpec`/`hexSpec` stating the grouping
    over the stripped string ("0o0"/"0x0" when no bits remain). -/
theorem c8_grouped_rendering (x : BitValue) :
    bvOct x = octSpec x ∧ bvHex x = hexSpec x :=
  ⟨bvOct_eq_octSpec x, bvHex_eq_hexSpec x⟩

/-- C8's digit counts are not `ceil(width/3)` and `ceil(width/4)`: the
    width-4 pattern 0001 renders as "0o1" with one octal digit, not two, and
    the width-5 pattern 00001 renders as "0x1" with one hexadecimal digit,
    not two. -/
theorem c8_grouped_rendering_counterexample :
    (bvOct { bits := 4, signed := false, value := [false, false, false, true] } =
      ['0', 'o', '1'] ∧ (4 + 2) / 3 = 2) ∧
    (bvHex { bits := 5, signed := false, value := [false, false, false, false, true] } =
      ['0', 'x', '1'] ∧ (5 + 3) / 4 = 2) := by
  refine ⟨⟨?_, ?_⟩, ?_, ?_⟩ <;> decide

/-- C9: whenever a call fails — bad literal, rejected operand type, division
    by a normalized zero — the receiver handed back is exactly the one from
    before the call: in the traced code every raise happens before the one
    assignment to the stored string, which this embedding renders by
    returning the untouched receiver alongside the exception. -/
theorem c9_error_atomicity (x : BitValue) (v : PyVal) (n fuel : Nat)
    (other : BitValue) : errorAtomic x v n fuel other :=
  ⟨fun e h => inPlace_err h, fun e h => inPlace_err h, fun e h => inPlace_err h,
    fun e h => inPlace_err h, fun e h => inPlace_err h, fun e h => inPlace_err h,
    fun e h => inPlace_err h, fun e h => inPlace_err h, fun e h => inPlace_err h,
    fun e h => bvSetValue_err h,
    fun x2 e h => bvIFloorDiv_err h, fun x2 e h => bvIMod_err h⟩

/-- C10: a short binary, octal or hexadecimal literal is left-padded to the
    width with its own leading digit when the receiver is signed and with
    zero when it is unsigned — sign extension of literals, confirmed from
    `_adapt_bit_count`'s `value[0] if self.signed else "0"` padding. -/
theorem c10_literal_sign_extension (bits : Nat) (hb : 1 ≤ bits) (signed : Bool) :
    (∀ l : List Bool, l ≠ [] → l.length ≤ bits →
      construct (.pstr ('0' :: 'b' :: l.map bitChar)) bits signed =
        .ok { bits := bits, signed := signed, value := List.replicate (bits - l.length) (if signed then l.headD false else false) ++ l }) ∧
    (∀ (cs : List Char) (L : List (List Bool)),
      cs.mapM octBits = some L → cs ≠ [] → L.flatten.length ≤ bits →
      construct (.pstr ('0' :: 'o' :: cs)) bits signed =
        .ok { bits := bits, signed := signed, value := List.replicate (bits - L.flatten.length) (if signed then L.flatten.headD false else false) ++ L.flatten }) ∧
    (∀ (cs : List Char) (L : List (List Bool)),
      cs.mapM (fun c => hexBits (hexUpper c)) = some L → cs ≠ [] →
      L.flatten.length ≤ bits →
      construct (.pstr ('0' :: 'x' :: cs)) bits signed =
        .ok { bits := bits, signed := signed, value := List.replicate (bits - L.flatten.length) (if signed then L.flatten.headD false else false) ++ L.flatten }) := by
  refine ⟨?_, ?_, ?_⟩
  · intro l hl hlen
    rw [construct, if_neg (by omega)]
    show setterDispatch { bits := bits, signed := signed, value := [] }
      ('0' :: 'b' :: l.map bitChar) = _
    rw [setterDispatch]
    have hc : ('0' :: 'b' :: l.map bitChar).take 2 = ['0', 'b'] := rfl
    rw [if_pos hc, set_from_bin_round _ _ hl]
    show PyRes.ok ({ bits := bits, signed := signed, value := adapt_bit_count bits signed l } : BitValue) =
      PyRes.ok ({ bits := bits, signed := signed, value := List.replicate (bits - l.length) (if signed then l.headD false else false) ++ l } : BitValue)
    rw [adapt_of_le signed hlen]
  · intro cs L hm hne hlen
    rw [construct, if_neg (by omega)]
    show setterDispatch { bits := bits, signed := signed, value := [] }
      ('0' :: 'o' :: cs) = _
    rw [setterDispatch]
    rw [if_neg (take2_cons_ne (Or.inl (by decide))),
      if_pos (show ('0' :: 'o' :: cs).take 2 = ['0', 'o'] from rfl),
      set_from_oct_digits _ _ hm hne]
    show PyRes.ok ({ bits := bits, signed := signed, value := adapt_bit_count bits signed L.flatten } : BitValue) =
      PyRes.ok ({ bits := bits, signed := signed, value := List.replicate (bits - L.flatten.length) (if signed then L.flatten.headD false else false) ++ L.flatten } : BitValue)
    rw [adapt_of_le signed hlen]
  · intro cs L hm hne hlen
    rw [construct, if_neg (by omega)]
    show setterDispatch { bits := bits, signed := signed, value := [] }
      ('0' :: 'x' :: cs) = _
    rw [setterDispatch]
    rw [if_neg (take2_cons_ne (Or.inl (by decide))),
      if_neg (take2_cons_ne (Or.inl (by decide))),
      if_pos (show ('0' :: 'x' :: cs).take 2 = ['0', 'x'] from rfl),
      set_from_hex_digits _ _ hm hne]
    show PyRes.ok ({ bits := bits, signed := signed, value := adapt_bit_count bits signed L.flatten } : BitValue) =
      PyRes.ok ({ bits := bits, signed := signed, value := List.replicate (bits - L.flatten.length) (if signed then L.flatten.headD false else false) ++ L.flatten } : BitValue)
    rw [adapt_of_le signed hlen]

theorem c10_literal_sign_extension_witness :
    construct (.pstr ['0', 'b', '1']) 4 true =
      .ok { bits := 4, signed := true, value := [true, true, true, true] } ∧
    construct (.pstr ['0', 'b', '1']) 4 false =
      .ok { bits := 4, signed := false, value := [false, false, false, true] } := by
  constructor
  · exact (c10_literal_sign_extension 4 (by decide) true).1 [true] (by decide) (by decide)
  · exact (c10_literal_sign_extension 4 (by decide) false).1 [true] (by decide) (by decide)

end BitSim
